import Mathlib

/-!
Verification development for a 2048 TD-learning program: the sliding-tile board
engine (size-generic, instantiated at 4x4 and 5x5), the n-tuple value network with
symmetry-expanded patterns, weight-file persistence, and the move-selection
policies (learning-loop greedy selection, 1-ply greedy player, expectimax player).

A board is a list of cell codes in row-major order (code 0 = empty, code `k > 0`
is the tile `2 ^ k`; the engine's documented encoding uses codes 0..15).  Tile
codes and LUT indices are modelled as `Nat`; numeric weights and evaluation
values are modelled as rationals, exact stand-ins for the program's numbers
wherever no rounding is involved.
-/

namespace Game2048

/-- `tileValue` from the engine: code 0 is empty, code `k > 0` is the tile
`2 ^ k` (`1 << log2val` in the source). -/
def tileValue (log2val : Nat) : Nat :=
  if log2val = 0 then 0 else 2 ^ log2val

/-- First and last phase of `slideLine`: compact the non-empty cells toward the
front, preserving order, and pad with zeros to the original length (the source
writes the non-zero entries forward in place and zero-fills the tail). -/
def compactLine (line : List Nat) : List Nat :=
  let nz := line.filter fun v => decide (v ≠ 0)
  nz ++ List.replicate (line.length - nz.length) 0

/-- Middle phase of `slideLine`: one left-to-right merge scan.  A non-zero cell
equal to its immediate successor is incremented (`line[i]++`), the merge reward
`1 << line[i]` (the merged tile's actual value `2 ^ (a+1)`) is accumulated, the
consumed cell is zeroed and the scan skips the next position, so merges never
cascade within one pass. -/
def mergePass : List Nat → List Nat × Nat
  | a :: b :: rest =>
    if a ≠ 0 ∧ a = b then
      let m := mergePass rest
      ((a + 1) :: 0 :: m.1, m.2 + 2 ^ (a + 1))
    else
      let m := mergePass (b :: rest)
      (a :: m.1, m.2)
  | l => (l, 0)

/-- The codes of the tiles created by merges in one `mergePass` scan, in scan
order (each merge of two `a` tiles creates one tile of code `a + 1`). -/
def mergedCodes : List Nat → List Nat
  | a :: b :: rest =>
    if a ≠ 0 ∧ a = b then (a + 1) :: mergedCodes rest
    else mergedCodes (b :: rest)
  | _ => []

/-- `slideLine` from the engine: compact, merge once, compact again; returns the
transformed line and the reward accumulated by the merges.  The source operates
in place on a fixed-size array whose size is the line's length. -/
def slideLine (line : List Nat) : List Nat × Nat :=
  let compacted := compactLine line
  let m := mergePass compacted
  (compactLine m.1, m.2)

/-- Number of non-empty cells of a line. -/
def nzCount (l : List Nat) : Nat := (l.filter fun v => decide (v ≠ 0)).length

/-- Total of the actual tile values on a line or board. -/
def tvSum (l : List Nat) : Nat := (l.map tileValue).sum

/-! ## Board-level engine

A board of side `size` is a row-major list of `size * size` cell codes.  `move`
extracts each of the `size` lines in the direction-dependent order of the
source's `switch`, slides it, and writes it back; it reports whether any cell
changed and the total merge reward.  Directions: 0 = up, 1 = right, 2 = down,
3 = left. -/

/-- The board index read into slot `i` of line `k` for a direction, from the
source's `switch (dir)` in `move`. -/
def linePos (size : Nat) (dir : Fin 4) (k i : Nat) : Nat :=
  if dir = 0 then i * size + k
  else if dir = 1 then k * size + (size - 1 - i)
  else if dir = 2 then (size - 1 - i) * size + k
  else k * size + i

/-- Read line `k` of the board for a direction (`line[i] = board[...]`). -/
def getLine (size : Nat) (board : List Nat) (dir : Fin 4) (k : Nat) : List Nat :=
  (List.range size).map fun i => board.getD (linePos size dir k i) 0

/-- Write a line back to the board at the same positions it was read from. -/
def setLine (size : Nat) (board : List Nat) (dir : Fin 4) (k : Nat) (line : List Nat) :
    List Nat :=
  (List.range size).foldl (fun bd i => bd.set (linePos size dir k i) (line.getD i 0)) board

/-- Result of `move`: the transformed board, whether any cell changed, and the
total merge reward. -/
structure MoveResult where
  board : List Nat
  moved : Bool
  reward : Nat
  deriving DecidableEq, Repr

/-- Body of `move`'s per-line loop: slide line `k`, write it back, accumulate
the reward, and record whether the line changed (the source compares the slid
line element-wise against a saved copy, which for equal-length lines is list
inequality). -/
def moveStep (size : Nat) (dir : Fin 4) (st : MoveResult) (k : Nat) : MoveResult :=
  let line := getLine size st.board dir k
  let res := slideLine line
  { board := setLine size st.board dir k res.1,
    moved := st.moved || decide (res.1 ≠ line),
    reward := st.reward + res.2 }

/-- `move` of the engine, generic in the board side (the 4x4 and 5x5 engines are
textually identical up to `SIZE`): for each line, slide it, accumulate the
reward, compare with the original line to detect movement, and write it back. -/
def moveDir (size : Nat) (board : List Nat) (dir : Fin 4) : MoveResult :=
  (List.range size).foldl (moveStep size dir) ⟨board, false, 0⟩

/-- The 4x4 engine's `move` (on a clone, as `moveClone` does). -/
def move (board : List Nat) (dir : Fin 4) : MoveResult := moveDir 4 board dir

/-- `canMove` of the 4x4 engine: any empty cell, or any horizontally or
vertically adjacent equal pair. -/
def canMove (board : List Nat) : Bool :=
  ((List.range 16).any fun i => board.getD i 0 == 0) ||
  ((List.range 4).any fun r => (List.range 4).any fun c =>
    (decide (c < 3) && (board.getD (r * 4 + c) 0 == board.getD (r * 4 + c + 1) 0)) ||
    (decide (r < 3) && (board.getD (r * 4 + c) 0 == board.getD ((r + 1) * 4 + c) 0)))

/-- The codes of all tiles created by merges during `move b dir`, in loop
order: for each of the four lines (read from the original board — the lines
touch disjoint cells), the codes created by the merge scan on the compacted
line. -/
def moveMergedCodes (b : List Nat) (dir : Fin 4) : List Nat :=
  mergedCodes (compactLine (getLine 4 b dir 0)) ++
  mergedCodes (compactLine (getLine 4 b dir 1)) ++
  mergedCodes (compactLine (getLine 4 b dir 2)) ++
  mergedCodes (compactLine (getLine 4 b dir 3))

/-- A 4x4 board of the engine's data model: 16 cells, codes 0..15 (the
engine's documented log2 encoding, under which the `Nat` model is exact). -/
def ValidBoard (b : List Nat) : Prop := b.length = 16 ∧ ∀ c ∈ b, c < 16

instance (b : List Nat) : Decidable (ValidBoard b) :=
  inferInstanceAs (Decidable (b.length = 16 ∧ ∀ c ∈ b, c < 16))

/-! ## Pattern and symmetry catalog (4x4)

The 8 symmetry transforms of the square board, each tabulated as a permutation
of the 16 cell indices, and the hand-chosen base tuple patterns. -/

/-- `buildMap`: tabulate a row/column transform over the 16 cells (row-major,
the source's loop order), storing `nr * SIZE + nc` at index `r * SIZE + c`. -/
def buildMap (f : Nat → Nat → Nat × Nat) : List Nat :=
  ((List.range 4).map fun r => (List.range 4).map fun c => (f r c).1 * 4 + (f r c).2).flatten

def identity : List Nat := buildMap fun r c => (r, c)

def rot90 : List Nat := buildMap fun r c => (c, 4 - 1 - r)

def rot180 : List Nat := buildMap fun r c => (4 - 1 - r, 4 - 1 - c)

def rot270 : List Nat := buildMap fun r c => (4 - 1 - c, r)

def flipH : List Nat := buildMap fun r c => (r, 4 - 1 - c)

def flipH_rot90 : List Nat := buildMap fun r c => (4 - 1 - c, 4 - 1 - r)

def flipH_rot180 : List Nat := buildMap fun r c => (4 - 1 - r, 4 - 1 - (4 - 1 - c))

def flipH_rot270 : List Nat := buildMap fun r c => (4 - 1 - (4 - 1 - c), r)

def SYMMETRY_MAPS : List (List Nat) :=
  [identity, rot90, rot180, rot270, flipH, flipH_rot90, flipH_rot180, flipH_rot270]

/-- Apply a symmetry map to a tuple pattern (`pattern.map(idx => symMap[idx])`). -/
def applySymmetry (pattern symMap : List Nat) : List Nat :=
  pattern.map fun idx => symMap.getD idx 0

/-- One iteration of `allSymmetries`: skip a transformed tuple already seen,
otherwise record it in the seen set and push it onto the variant list.  The
source keys its seen-set by `transformed.join(',')`; on lists of numbers that
string key is injective, so membership is modelled by list equality. -/
def symStep (pattern : List Nat) (acc : List (List Nat) × List (List Nat))
    (symMap : List Nat) : List (List Nat) × List (List Nat) :=
  let transformed := applySymmetry pattern symMap
  if transformed ∈ acc.1 then acc else (transformed :: acc.1, acc.2 ++ [transformed])

/-- `allSymmetries`: apply all 8 symmetry maps to a pattern and keep the first
occurrence of each distinct transformed index list, in transform order. -/
def allSymmetries (pattern : List Nat) : List (List Nat) :=
  (SYMMETRY_MAPS.foldl (symStep pattern) ([], [])).2

/-- Modelled from the spec's words for the variant-list claim: keep only the
first occurrence of each distinct element of a list, in order. -/
def keepFirstOccurrences (xs : List (List Nat)) : List (List Nat) :=
  xs.foldl (fun acc t => if t ∈ acc then acc else acc ++ [t]) []

/-- `idx(r, c)` of `patterns4x4.js`. -/
def idx4 (r c : Nat) : Nat := r * 4 + c

def rect_2x3 : List Nat := [idx4 0 0, idx4 0 1, idx4 0 2, idx4 1 0, idx4 1 1, idx4 1 2]

def rect_3x2 : List Nat := [idx4 0 0, idx4 0 1, idx4 1 0, idx4 1 1, idx4 2 0, idx4 2 1]

def corner_L : List Nat := [idx4 0 0, idx4 0 1, idx4 0 2, idx4 1 0, idx4 1 1, idx4 2 0]

def line4_h : List Nat := [idx4 0 0, idx4 0 1, idx4 0 2, idx4 0 3]

def sq2x2 : List Nat := [idx4 0 0, idx4 0 1, idx4 1 0, idx4 1 1]

def stair4 : List Nat := [idx4 0 0, idx4 0 1, idx4 1 1, idx4 1 2]

def lshape4 : List Nat := [idx4 0 0, idx4 1 0, idx4 2 0, idx4 2 1]

/-- The base patterns of the 4x4 network, before symmetry expansion. -/
def BASE_PATTERNS : List (List Nat) :=
  [rect_2x3, rect_3x2, corner_L, line4_h, sq2x2, stair4, lshape4]

/-- `NUM_VALUES` of the pattern catalog: 16 tile codes (0..15). -/
def NUM_VALUES : Nat := 16

/-- LUT length for a tuple length: `NUM_VALUES ** tupleLength`. -/
def lutSize (tupleLength : Nat) : Nat := NUM_VALUES ^ tupleLength

/-! ## N-tuple value network

One entry per base pattern: the tuple length, the deduplicated symmetry
variants, and one shared LUT.  LUT weights are modelled as rationals (the
program stores 32-bit floats; persistence copies them without arithmetic). -/

structure PatternEntry where
  tupleLen : Nat
  variants : List (List Nat)
  lut : List ℚ
  deriving DecidableEq

structure NTupleNetwork where
  patterns : List PatternEntry
  deriving DecidableEq

/-- `_index`: read the board's tile codes at the variant's positions as a
radix-`NUM_VALUES` number, most significant position first. -/
def NTupleNetwork._index (board : List Nat) (pattern : List Nat) : Nat :=
  pattern.foldl (fun idx i => idx * NUM_VALUES + board.getD i 0) 0

/-- `evaluate`: the sum of one LUT read per variant of every pattern. -/
def NTupleNetwork.evaluate (n : NTupleNetwork) (board : List Nat) : ℚ :=
  (n.patterns.map fun p =>
    (p.variants.map fun v => p.lut.getD (NTupleNetwork._index board v) 0).sum).sum

/-- `update`: add `delta` to the addressed LUT cell of every variant of every
pattern (`lut[idx] += delta`, one write per variant, no deduplication). -/
def NTupleNetwork.update (n : NTupleNetwork) (board : List Nat) (delta : ℚ) :
    NTupleNetwork :=
  { patterns := n.patterns.map fun p =>
      { p with
        lut := p.variants.foldl
          (fun lut v =>
            lut.set (NTupleNetwork._index board v)
              (lut.getD (NTupleNetwork._index board v) 0 + delta)) p.lut } }

/-- The `NTupleNetwork` constructor: one entry per base pattern, with its
symmetry variants and an all-zero LUT of length `lutSize (pattern length)`. -/
def NTupleNetwork.init : NTupleNetwork :=
  { patterns := BASE_PATTERNS.map fun basePattern =>
      { tupleLen := basePattern.length,
        variants := allSymmetries basePattern,
        lut := List.replicate (lutSize basePattern.length) 0 } }

/-! ## Weight-file persistence

The text format (`save`/`load`) is modelled by the JSON structure the source
writes; the binary format (`saveBinary`/`loadBinary`) by its parsed record
stream.  Loading mutates the network's LUTs in place pattern by pattern and
throws on the first mismatch, so a load returns the (possibly partially
overwritten) network state together with an optional error. -/

structure SavedPattern where
  tupleLen : Nat
  numVariants : Nat
  lutSize : Nat
  lut : List ℚ
  deriving DecidableEq

structure SaveData where
  version : Nat
  boardSize : Nat
  numPatterns : Nat
  patterns : List SavedPattern
  deriving DecidableEq

inductive LoadError where
  | patternCountMismatch
  | lutSizeMismatch
  | typeError
  | rangeError
  deriving DecidableEq

/-- `save`: serialize the version tag, pattern count, and per-pattern tuple
length, variant count, LUT length and LUT contents (`Array.from(p.lut)`; JSON
round-trips these numbers exactly). -/
def NTupleNetwork.save (n : NTupleNetwork) : SaveData :=
  { version := 1, boardSize := 4, numPatterns := n.patterns.length,
    patterns := n.patterns.map fun p =>
      { tupleLen := p.tupleLen, numVariants := p.variants.length,
        lutSize := p.lut.length, lut := p.lut } }

/-- `Float32Array.prototype.set(src)`: throws a RangeError (before copying
anything) if the source is longer than the target, otherwise overwrites the
target's prefix and keeps its tail. -/
def lutSet (dst src : List ℚ) : Option (List ℚ) :=
  if dst.length < src.length then none
  else some (src ++ dst.drop src.length)

/-- The per-pattern loop of `load`: a missing entry (`data.patterns[i]` is
`undefined`, a TypeError) or a `lutSize` mismatch throws, leaving the patterns
already processed overwritten and the rest untouched. -/
def loadAux : List PatternEntry → List SavedPattern → List PatternEntry × Option LoadError
  | [], _ => ([], none)
  | p :: ps, [] => (p :: ps, some .typeError)
  | p :: ps, s :: ss =>
    if s.lutSize ≠ p.lut.length then (p :: ps, some .lutSizeMismatch)
    else
      match lutSet p.lut s.lut with
      | none => (p :: ps, some .rangeError)
      | some lut₂ =>
        let rest := loadAux ps ss
        ({ p with lut := lut₂ } :: rest.1, rest.2)

/-- `load`: reject a pattern-count mismatch up front (network untouched), then
run the per-pattern copy loop. -/
def NTupleNetwork.load (n : NTupleNetwork) (data : SaveData) :
    NTupleNetwork × Option LoadError :=
  if data.numPatterns ≠ n.patterns.length then (n, some .patternCountMismatch)
  else
    let r := loadAux n.patterns data.patterns
    (⟨r.1⟩, r.2)

/-- One record of the binary weight file: the stored tuple length and the raw
float payload (the stored `lutLen` field is the payload's length, which is what
segments the byte stream). -/
structure BinRecord where
  tupleLen : Nat
  data : List ℚ
  deriving DecidableEq

structure BinFile where
  version : Nat
  numPatterns : Nat
  records : List BinRecord
  deriving DecidableEq

/-- `saveBinary`: version, pattern count, then per pattern the tuple length,
LUT length and the LUT's raw float bytes. -/
def NTupleNetwork.saveBinary (n : NTupleNetwork) : BinFile :=
  { version := 1, numPatterns := n.patterns.length,
    records := n.patterns.map fun p => { tupleLen := p.tupleLen, data := p.lut } }

/-- The per-pattern loop of `loadBinary`: an exhausted byte stream (a
RangeError from the `DataView` read) or a LUT-length mismatch throws, leaving
the patterns already processed overwritten; otherwise the pattern's LUT is
replaced by the record's payload. -/
def loadBinAux : List PatternEntry → List BinRecord → List PatternEntry × Option LoadError
  | [], _ => ([], none)
  | p :: ps, [] => (p :: ps, some .rangeError)
  | p :: ps, r :: rs =>
    if r.data.length ≠ p.lut.length then (p :: ps, some .lutSizeMismatch)
    else
      let rest := loadBinAux ps rs
      ({ p with lut := r.data } :: rest.1, rest.2)

/-- `loadBinary`: reject a pattern-count mismatch up front (network untouched),
then run the per-pattern copy loop. -/
def NTupleNetwork.loadBinary (n : NTupleNetwork) (f : BinFile) :
    NTupleNetwork × Option LoadError :=
  if f.numPatterns ≠ n.patterns.length then (n, some .patternCountMismatch)
  else
    let r := loadBinAux n.patterns f.records
    (⟨r.1⟩, r.2)

/-- Two networks have the same catalog: pattern-by-pattern the same variant
lists and the same LUT lengths (as two networks built by the constructor do). -/
def CatalogMatch (m n : NTupleNetwork) : Prop :=
  List.Forall₂ (fun pm pn => pm.variants = pn.variants ∧ pm.lut.length = pn.lut.length)
    m.patterns n.patterns

/-! ## Move selection of the learning loop (`playEpisode`)

The loop scans directions 0,1,2,3 (up, right, down, left), computes the
candidate afterstate of each legal direction on a board copy, and keeps the
first candidate that strictly improves `reward + V(afterstate)`.  The source
initialises `bestValue` to `-Infinity`; since every candidate value is finite,
that is modelled by an `Option` accumulator whose `none` state any candidate
replaces. -/

structure Cand where
  dir : Fin 4
  after : List Nat
  reward : Nat
  value : ℚ
  deriving DecidableEq

def selStep (size : Nat) (net : NTupleNetwork) (b : List Nat) (acc : Option Cand)
    (d : Fin 4) : Option Cand :=
  let result := moveDir size b d
  if result.moved = false then acc
  else
    let value := (result.reward : ℚ) + net.evaluate result.board
    match acc with
    | none => some ⟨d, result.board, result.reward, value⟩
    | some c => if c.value < value then some ⟨d, result.board, result.reward, value⟩ else acc

/-- The learning loop's move selection: best direction, afterstate, reward and
value, or `none` when no direction is legal (the loop's `bestDir = -1`). -/
def selectBestMove (size : Nat) (net : NTupleNetwork) (b : List Nat) : Option Cand :=
  List.foldl (selStep size net b) none [0, 1, 2, 3]

/-- The decision value of a direction: `reward + V(afterstate)`. -/
def actionValue (size : Nat) (net : NTupleNetwork) (b : List Nat) (d : Fin 4) : ℚ :=
  ((moveDir size b d).reward : ℚ) + net.evaluate (moveDir size b d).board

/-! ## Players (5x5 engine)

`GreedyPlayer` and `ExpectimaxPlayer` consume the network only through
`evaluate`, so they are parameterised by the evaluation function `V`.  The
expectimax chance-node sampling of empty cells uses `Math.random`; it is
modelled by an arbitrary `sample` function. -/

/-- `GreedyPlayer.selectMove`: best direction by `reward + V(afterstate)`,
`-1` sentinel when no direction is legal. -/
def greedySelectMove (V : List Nat → ℚ) (b : List Nat) : Int :=
  (([0, 1, 2, 3] : List (Fin 4)).foldl
    (fun acc dir =>
      let result := moveDir 5 b dir
      if result.moved = false then acc
      else
        let value := (result.reward : ℚ) + V result.board
        match acc.2 with
        | none => ((dir.val : Int), some value)
        | some bv => if bv < value then ((dir.val : Int), some value) else acc)
    (-1, none)).1

mutual

/-- `ExpectimaxPlayer._chanceNode`: at depth ≤ 0 (or with no empty cell) the
static evaluation; otherwise average, over the (possibly sampled) empty cells,
the probability-weighted decision values with a code-1 tile (weight 0.9) and a
code-2 tile (weight 0.1) spawned there. -/
def chanceNode (V : List Nat → ℚ) (sample : List Nat → List Nat) (depth : Int)
    (board : List Nat) : ℚ :=
  if depth ≤ 0 then V board
  else
    let empty := (List.range 25).filter fun i => board.getD i 0 == 0
    if empty.length = 0 then V board
    else
      let cells := if empty.length ≤ 8 then empty else sample empty
      chanceTotal V sample depth board cells / (cells.length : ℚ)
termination_by ((depth + 1).toNat, 0, 0)

/-- The chance node's accumulation loop over the sampled cells. -/
def chanceTotal (V : List Nat → ℚ) (sample : List Nat → List Nat) (depth : Int)
    (board : List Nat) : List Nat → ℚ
  | [] => 0
  | cell :: rest =>
    (9 / 10 : ℚ) * playerNode V sample depth (board.set cell 1) +
    (1 / 10 : ℚ) * playerNode V sample depth (board.set cell 2) +
    chanceTotal V sample depth board rest
termination_by cells => (depth.toNat, 2, cells.length)

/-- `ExpectimaxPlayer._playerNode`: the maximum of `reward + chanceNode` over
the legal directions, or the static evaluation when none is legal. -/
def playerNode (V : List Nat → ℚ) (sample : List Nat → List Nat) (depth : Int)
    (board : List Nat) : ℚ :=
  match playerBest V sample depth board [0, 1, 2, 3] none with
  | none => V board
  | some v => v
termination_by (depth.toNat, 1, 5)

/-- The player node's maximisation loop (`-Infinity` initial best modelled by
the `Option` accumulator). -/
def playerBest (V : List Nat → ℚ) (sample : List Nat → List Nat) (depth : Int)
    (board : List Nat) : List (Fin 4) → Option ℚ → Option ℚ
  | [], acc => acc
  | dir :: rest, acc =>
    let result := moveDir 5 board dir
    if result.moved = false then playerBest V sample depth board rest acc
    else
      let value := (result.reward : ℚ) + chanceNode V sample (depth - 1) result.board
      playerBest V sample depth board rest
        (match acc with
         | none => some value
         | some bv => if bv < value then some value else acc)
termination_by dirs _ => (depth.toNat, 1, dirs.length)

end

/-- `ExpectimaxPlayer.selectMove`: like the greedy player, but each direction
is valued by `reward + chanceNode(afterstate, depth - 1)`. -/
def expectimaxSelectMove (V : List Nat → ℚ) (sample : List Nat → List Nat)
    (depth : Int) (b : List Nat) : Int :=
  (([0, 1, 2, 3] : List (Fin 4)).foldl
    (fun acc dir =>
      let result := moveDir 5 b dir
      if result.moved = false then acc
      else
        let value := (result.reward : ℚ) + chanceNode V sample (depth - 1) result.board
        match acc.2 with
        | none => ((dir.val : Int), some value)
        | some bv => if bv < value then ((dir.val : Int), some value) else acc)
    (-1, none)).1

/-- Recursion principle matching `mergePass`: empty list, singleton, and the
two-element head with both one-step and two-step tails available. -/
theorem pairRec {motive : List Nat → Prop} (h0 : motive []) (h1 : ∀ a, motive [a])
    (h2 : ∀ a b rest, motive rest → motive (b :: rest) → motive (a :: b :: rest)) :
    ∀ l, motive l
  | [] => h0
  | [a] => h1 a
  | a :: b :: rest => h2 a b rest (pairRec h0 h1 h2 rest) (pairRec h0 h1 h2 (b :: rest))

theorem mergePass_nil : mergePass [] = ([], 0) := rfl

theorem mergePass_single (a : Nat) : mergePass [a] = ([a], 0) := rfl

theorem mergePass_cons₂ (a b : Nat) (rest : List Nat) :
    mergePass (a :: b :: rest) =
      if a ≠ 0 ∧ a = b then
        ((a + 1) :: 0 :: (mergePass rest).1, (mergePass rest).2 + 2 ^ (a + 1))
      else (a :: (mergePass (b :: rest)).1, (mergePass (b :: rest)).2) := rfl

theorem mergedCodes_nil : mergedCodes [] = [] := rfl

theorem mergedCodes_single (a : Nat) : mergedCodes [a] = [] := rfl

theorem mergedCodes_cons₂ (a b : Nat) (rest : List Nat) :
    mergedCodes (a :: b :: rest) =
      if a ≠ 0 ∧ a = b then (a + 1) :: mergedCodes rest
      else mergedCodes (b :: rest) := rfl

theorem length_compactLine (l : List Nat) : (compactLine l).length = l.length := by
  have h := List.length_filter_le (fun v => decide (v ≠ 0)) l
  simp only [compactLine, List.length_append, List.length_replicate]
  omega

theorem length_mergePass (l : List Nat) : (mergePass l).1.length = l.length := by
  induction l using pairRec with
  | h0 => simp [mergePass_nil]
  | h1 a => simp [mergePass_single]
  | h2 a b rest ih2 ih1 =>
    rw [mergePass_cons₂]
    by_cases h : a ≠ 0 ∧ a = b
    · rw [if_pos h]; simp only [List.length_cons] at *; omega
    · rw [if_neg h]; simp only [List.length_cons] at *; omega

theorem length_slideLine (l : List Nat) : (slideLine l).1.length = l.length := by
  simp [slideLine, length_compactLine, length_mergePass]

theorem nzCount_nil : nzCount [] = 0 := rfl

theorem nzCount_cons (a : Nat) (l : List Nat) :
    nzCount (a :: l) = (if a = 0 then 0 else 1) + nzCount l := by
  by_cases h : a = 0 <;> simp [nzCount, h, List.filter_cons, Nat.add_comm]

theorem nzCount_replicate_zero (n : Nat) : nzCount (List.replicate n 0) = 0 := by
  induction n with
  | zero => rfl
  | succ n ih => simpa [List.replicate_succ, nzCount_cons] using ih

theorem nzCount_append (l₁ l₂ : List Nat) :
    nzCount (l₁ ++ l₂) = nzCount l₁ + nzCount l₂ := by
  simp [nzCount, List.filter_append]

theorem nzCount_compactLine (l : List Nat) : nzCount (compactLine l) = nzCount l := by
  simp [compactLine, nzCount_append, nzCount_replicate_zero]
  simp [nzCount, List.filter_filter]

theorem nzCount_mergePass_le (l : List Nat) : nzCount (mergePass l).1 ≤ nzCount l := by
  induction l using pairRec with
  | h0 => simp [mergePass_nil]
  | h1 a => simp [mergePass_single]
  | h2 a b rest ih2 ih1 =>
    rw [mergePass_cons₂]
    by_cases h : a ≠ 0 ∧ a = b
    · rw [if_pos h]
      have ha1 : ¬(a + 1 = 0) := Nat.succ_ne_zero a
      have ha : ¬(a = 0) := h.1
      have hb : ¬(b = 0) := h.2 ▸ ha
      simp only [nzCount_cons] at *
      simp [ha1, ha, hb]
      omega
    · rw [if_neg h]
      simp only [nzCount_cons] at *
      omega

theorem nzCount_mergePass_lt (l : List Nat) (h : (mergePass l).2 ≠ 0) :
    nzCount (mergePass l).1 < nzCount l := by
  induction l using pairRec with
  | h0 => simp [mergePass_nil] at h
  | h1 a => simp [mergePass_single] at h
  | h2 a b rest ih2 ih1 =>
    rw [mergePass_cons₂]
    by_cases hm : a ≠ 0 ∧ a = b
    · rw [if_pos hm]
      have ha1 : ¬(a + 1 = 0) := Nat.succ_ne_zero a
      have ha : ¬(a = 0) := hm.1
      have hb : ¬(b = 0) := hm.2 ▸ ha
      have hle := nzCount_mergePass_le rest
      simp only [nzCount_cons] at *
      simp [ha1, ha, hb]
      omega
    · rw [mergePass_cons₂, if_neg hm] at h
      rw [if_neg hm]
      have := ih1 h
      simp only [nzCount_cons] at *
      omega

/-- An unchanged line earned no merge reward: a merge strictly decreases the
number of non-empty cells, which `slideLine` otherwise preserves. -/
theorem slideLine_eq_self_reward (l : List Nat) (h : (slideLine l).1 = l) :
    (slideLine l).2 = 0 := by
  by_contra hr
  have hlt : nzCount (mergePass (compactLine l)).1 < nzCount (compactLine l) :=
    nzCount_mergePass_lt _ (by simpa [slideLine] using hr)
  have h1 : nzCount (slideLine l).1 = nzCount (mergePass (compactLine l)).1 := by
    simp [slideLine, nzCount_compactLine]
  have h2 : nzCount (compactLine l) = nzCount l := nzCount_compactLine l
  rw [h] at h1
  omega

theorem tvSum_nil : tvSum [] = 0 := rfl

theorem tvSum_cons (a : Nat) (l : List Nat) : tvSum (a :: l) = tileValue a + tvSum l := by
  simp [tvSum]

theorem tvSum_append (l₁ l₂ : List Nat) : tvSum (l₁ ++ l₂) = tvSum l₁ + tvSum l₂ := by
  simp [tvSum]

theorem tvSum_replicate_zero (n : Nat) : tvSum (List.replicate n 0) = 0 := by
  induction n with
  | zero => rfl
  | succ n ih => simpa [List.replicate_succ, tvSum_cons, tileValue] using ih

theorem tvSum_filter_nz (l : List Nat) : tvSum (l.filter fun v => decide (v ≠ 0)) = tvSum l := by
  induction l with
  | nil => rfl
  | cons a l ih =>
    rw [List.filter_cons]
    by_cases h : a = 0
    · rw [if_neg (by simp [h]), ih, tvSum_cons, h]
      simp [tileValue]
    · rw [if_pos (by simp [h]), tvSum_cons, tvSum_cons, ih]

theorem tvSum_compactLine (l : List Nat) : tvSum (compactLine l) = tvSum l := by
  simp only [compactLine]
  rw [tvSum_append, tvSum_replicate_zero, tvSum_filter_nz]
  omega

theorem tvSum_mergePass (l : List Nat) : tvSum (mergePass l).1 = tvSum l := by
  induction l using pairRec with
  | h0 => simp [mergePass_nil]
  | h1 a => simp [mergePass_single]
  | h2 a b rest ih2 ih1 =>
    rw [mergePass_cons₂]
    by_cases h : a ≠ 0 ∧ a = b
    · rw [if_pos h]
      have ha : ¬(a = 0) := h.1
      have h0 : tileValue 0 = 0 := rfl
      have hval : tileValue (a + 1) = tileValue a + tileValue b := by
        simp only [tileValue, if_neg (Nat.succ_ne_zero a), if_neg ha, ← h.2, pow_succ]
        ring
      simp only [tvSum_cons] at *
      omega
    · rw [if_neg h]
      simp only [tvSum_cons] at *
      omega

/-- A slide only rearranges and merges tiles, so the total of the actual tile
values on the line is preserved (each merge turns two `2^a` into one `2^(a+1)`). -/
theorem tvSum_slideLine (l : List Nat) : tvSum (slideLine l).1 = tvSum l := by
  simp [slideLine, tvSum_compactLine, tvSum_mergePass]

/-- The reward of one merge scan is exactly the sum of the actual values
`2 ^ code` of the tiles the scan created. -/
theorem mergePass_reward_eq (l : List Nat) :
    (mergePass l).2 = ((mergedCodes l).map fun c => 2 ^ c).sum := by
  induction l using pairRec with
  | h0 => simp [mergePass_nil, mergedCodes_nil]
  | h1 a => simp [mergePass_single, mergedCodes_single]
  | h2 a b rest ih2 ih1 =>
    rw [mergePass_cons₂, mergedCodes_cons₂]
    by_cases h : a ≠ 0 ∧ a = b
    · rw [if_pos h, if_pos h]
      simp only [List.map_cons, List.sum_cons, ih2]
      ring
    · rw [if_neg h, if_neg h]
      exact ih1

/-! Position bookkeeping for the 4x4 board: within one direction the `size * size`
line positions are pairwise distinct and in bounds. -/

theorem linePos_fin_inj :
    ∀ (dir k i j m : Fin 4),
      linePos 4 dir k.val i.val = linePos 4 dir j.val m.val → k = j ∧ i = m := by
  decide

theorem linePos_fin_lt : ∀ (dir k i : Fin 4), linePos 4 dir k.val i.val < 16 := by
  decide

theorem linePos_ne (dir : Fin 4) {k i j m : Nat}
    (hk : k < 4) (hi : i < 4) (hj : j < 4) (hm : m < 4)
    (h : ¬(k = j ∧ i = m)) : linePos 4 dir k i ≠ linePos 4 dir j m := by
  intro he
  have := linePos_fin_inj dir ⟨k, hk⟩ ⟨i, hi⟩ ⟨j, hj⟩ ⟨m, hm⟩ he
  exact h ⟨congrArg Fin.val this.1, congrArg Fin.val this.2⟩

theorem linePos_lt (dir : Fin 4) {k i : Nat} (hk : k < 4) (hi : i < 4) :
    linePos 4 dir k i < 16 :=
  linePos_fin_lt dir ⟨k, hk⟩ ⟨i, hi⟩

/-! `List.set` / `List.getD` bookkeeping. -/

theorem getD_set_ne (b : List Nat) (p q v : Nat) (h : p ≠ q) :
    (b.set p v).getD q 0 = b.getD q 0 := by
  induction b generalizing p q with
  | nil => simp
  | cons a t ih =>
    cases p with
    | zero =>
      cases q with
      | zero => exact absurd rfl h
      | succ q => simp [List.set]
    | succ p =>
      cases q with
      | zero => simp [List.set]
      | succ q =>
        simp only [List.set, List.getD_cons_succ]
        exact ih p q (by omega)

theorem tvSum_set (b : List Nat) (p v : Nat) (hp : p < b.length) :
    tvSum (b.set p v) + tileValue (b.getD p 0) = tvSum b + tileValue v := by
  induction b generalizing p with
  | nil => simp at hp
  | cons a t ih =>
    cases p with
    | zero => simp [List.set, tvSum_cons]; omega
    | succ p =>
      simp only [List.set, tvSum_cons, List.getD_cons_succ]
      have := ih p (by simpa using hp)
      omega

theorem length_setLine (size : Nat) (b : List Nat) (dir : Fin 4) (k : Nat) (l : List Nat) :
    (setLine size b dir k l).length = b.length := by
  rw [setLine]
  induction List.range size generalizing b with
  | nil => rfl
  | cons x xs ih => simpa [List.foldl_cons] using ih (b.set (linePos size dir k x) (l.getD x 0))

theorem length_getLine (size : Nat) (b : List Nat) (dir : Fin 4) (k : Nat) :
    (getLine size b dir k).length = size := by
  simp [getLine]

theorem exists_four (l : List Nat) (h : l.length = 4) :
    ∃ a b c d, l = [a, b, c, d] := by
  rcases l with _ | ⟨a, _ | ⟨b, _ | ⟨c, _ | ⟨d, _ | t⟩⟩⟩⟩ <;> simp_all

/-! Concrete unfoldings at side 4. -/

theorem getLine_four (b : List Nat) (dir : Fin 4) (k : Nat) :
    getLine 4 b dir k =
      [b.getD (linePos 4 dir k 0) 0, b.getD (linePos 4 dir k 1) 0,
       b.getD (linePos 4 dir k 2) 0, b.getD (linePos 4 dir k 3) 0] := rfl

theorem setLine_four (b : List Nat) (dir : Fin 4) (k : Nat) (l : List Nat) :
    setLine 4 b dir k l =
      (((b.set (linePos 4 dir k 0) (l.getD 0 0)).set (linePos 4 dir k 1) (l.getD 1 0)).set
        (linePos 4 dir k 2) (l.getD 2 0)).set (linePos 4 dir k 3) (l.getD 3 0) := rfl

theorem moveDir_four (b : List Nat) (dir : Fin 4) :
    moveDir 4 b dir =
      moveStep 4 dir (moveStep 4 dir (moveStep 4 dir (moveStep 4 dir ⟨b, false, 0⟩ 0) 1) 2) 3 :=
  rfl

theorem moveStep_board (size : Nat) (dir : Fin 4) (st : MoveResult) (k : Nat) :
    (moveStep size dir st k).board =
      setLine size st.board dir k (slideLine (getLine size st.board dir k)).1 := rfl

theorem moveStep_moved (size : Nat) (dir : Fin 4) (st : MoveResult) (k : Nat) :
    (moveStep size dir st k).moved =
      (st.moved ||
        decide ((slideLine (getLine size st.board dir k)).1 ≠ getLine size st.board dir k)) := rfl

theorem moveStep_reward (size : Nat) (dir : Fin 4) (st : MoveResult) (k : Nat) :
    (moveStep size dir st k).reward =
      st.reward + (slideLine (getLine size st.board dir k)).2 := rfl

theorem slideLine_snd (l : List Nat) : (slideLine l).2 = (mergePass (compactLine l)).2 := rfl

/-- Reads at a position outside the four cells written by `setLine` are
unchanged. -/
theorem getD_setLine_outside (b : List Nat) (dir : Fin 4) (k : Nat) (l : List Nat) (q : Nat)
    (h : ∀ i, i < 4 → q ≠ linePos 4 dir k i) :
    (setLine 4 b dir k l).getD q 0 = b.getD q 0 := by
  rw [setLine_four]
  rw [getD_set_ne _ _ _ _ (Ne.symm (h 3 (by norm_num)))]
  rw [getD_set_ne _ _ _ _ (Ne.symm (h 2 (by norm_num)))]
  rw [getD_set_ne _ _ _ _ (Ne.symm (h 1 (by norm_num)))]
  rw [getD_set_ne _ _ _ _ (Ne.symm (h 0 (by norm_num)))]

/-- Writing line `j` back does not change any cell of a different line `k`:
within a direction the line positions are pairwise disjoint across lines. -/
theorem getLine_setLine_ne (b : List Nat) (dir : Fin 4) {k j : Nat}
    (hk : k < 4) (hj : j < 4) (hne : k ≠ j) (l : List Nat) :
    getLine 4 (setLine 4 b dir j l) dir k = getLine 4 b dir k := by
  have hout : ∀ c, c < 4 → (setLine 4 b dir j l).getD (linePos 4 dir k c) 0 =
      b.getD (linePos 4 dir k c) 0 := by
    intro c hc
    exact getD_setLine_outside b dir j l _ fun i hi =>
      linePos_ne dir hk hc hj hi fun hcon => hne hcon.1
  rw [getLine_four, getLine_four, hout 0 (by norm_num), hout 1 (by norm_num),
    hout 2 (by norm_num), hout 3 (by norm_num)]

/-- Writing a line of four values over its own four (pairwise distinct,
in-bounds) cells exchanges the old line total for the new one in the board
total. -/
theorem tvSum_setLine (b : List Nat) (dir : Fin 4) {k : Nat} (hk : k < 4)
    (hb : b.length = 16) (l : List Nat) (hl : l.length = 4) :
    tvSum (setLine 4 b dir k l) + tvSum (getLine 4 b dir k) = tvSum b + tvSum l := by
  obtain ⟨x0, x1, x2, x3, rfl⟩ := exists_four l hl
  have hp : ∀ i, i < 4 → linePos 4 dir k i < 16 := fun i hi => linePos_lt dir hk hi
  have hne : ∀ i j : Nat, i < 4 → j < 4 → i ≠ j →
      linePos 4 dir k i ≠ linePos 4 dir k j := by
    intro i j hi hj hij
    exact linePos_ne dir hk hi hk hj fun hcon => hij hcon.2
  rw [setLine_four, getLine_four]
  set p0 := linePos 4 dir k 0
  set p1 := linePos 4 dir k 1
  set p2 := linePos 4 dir k 2
  set p3 := linePos 4 dir k 3
  have g0 : ([x0, x1, x2, x3] : List Nat).getD 0 0 = x0 := rfl
  have g1 : ([x0, x1, x2, x3] : List Nat).getD 1 0 = x1 := rfl
  have g2 : ([x0, x1, x2, x3] : List Nat).getD 2 0 = x2 := rfl
  have g3 : ([x0, x1, x2, x3] : List Nat).getD 3 0 = x3 := rfl
  rw [g0, g1, g2, g3]
  have t1 := tvSum_set b p0 x0 (by rw [hb]; exact hp 0 (by norm_num))
  have t2 := tvSum_set (b.set p0 x0) p1 x1
    (by rw [List.length_set, hb]; exact hp 1 (by norm_num))
  have t3 := tvSum_set ((b.set p0 x0).set p1 x1) p2 x2
    (by rw [List.length_set, List.length_set, hb]; exact hp 2 (by norm_num))
  have t4 := tvSum_set (((b.set p0 x0).set p1 x1).set p2 x2) p3 x3
    (by rw [List.length_set, List.length_set, List.length_set, hb]; exact hp 3 (by norm_num))
  have r1 : (b.set p0 x0).getD p1 0 = b.getD p1 0 :=
    getD_set_ne _ _ _ _ (hne 0 1 (by norm_num) (by norm_num) (by norm_num))
  have r2 : ((b.set p0 x0).set p1 x1).getD p2 0 = b.getD p2 0 := by
    rw [getD_set_ne _ _ _ _ (hne 1 2 (by norm_num) (by norm_num) (by norm_num)),
      getD_set_ne _ _ _ _ (hne 0 2 (by norm_num) (by norm_num) (by norm_num))]
  have r3 : (((b.set p0 x0).set p1 x1).set p2 x2).getD p3 0 = b.getD p3 0 := by
    rw [getD_set_ne _ _ _ _ (hne 2 3 (by norm_num) (by norm_num) (by norm_num)),
      getD_set_ne _ _ _ _ (hne 1 3 (by norm_num) (by norm_num) (by norm_num)),
      getD_set_ne _ _ _ _ (hne 0 3 (by norm_num) (by norm_num) (by norm_num))]
  rw [r1] at t2
  rw [r2] at t3
  rw [r3] at t4
  simp only [tvSum_cons, tvSum_nil]
  omega

/-- One loop iteration of `move` preserves the board's total tile value. -/
theorem tvSum_moveStep_board (dir : Fin 4) (st : MoveResult) (k : Nat) (hk : k < 4)
    (hb : st.board.length = 16) :
    tvSum (moveStep 4 dir st k).board = tvSum st.board := by
  rw [moveStep_board]
  have hl : (slideLine (getLine 4 st.board dir k)).1.length = 4 := by
    rw [length_slideLine, length_getLine]
  have h2 := tvSum_setLine st.board dir hk hb _ hl
  have h3 := tvSum_slideLine (getLine 4 st.board dir k)
  omega

theorem length_moveStep_board (dir : Fin 4) (st : MoveResult) (k : Nat) :
    (moveStep 4 dir st k).board.length = st.board.length := by
  rw [moveStep_board, length_setLine]

theorem mk_board (bd : List Nat) (m : Bool) (r : Nat) :
    (⟨bd, m, r⟩ : MoveResult).board = bd := rfl

theorem mk_moved (bd : List Nat) (m : Bool) (r : Nat) :
    (⟨bd, m, r⟩ : MoveResult).moved = m := rfl

theorem mk_reward (bd : List Nat) (m : Bool) (r : Nat) :
    (⟨bd, m, r⟩ : MoveResult).reward = r := rfl

/-- Processing line `j` leaves every other line `k` of the board unchanged. -/
theorem getLine_moveStep_ne (dir : Fin 4) (st : MoveResult) (k j : Nat)
    (hk : k < 4) (hj : j < 4) (hne : k ≠ j) :
    getLine 4 (moveStep 4 dir st j).board dir k = getLine 4 st.board dir k := by
  rw [moveStep_board]
  exact getLine_setLine_ne st.board dir hk hj hne _

/-- The reward of `move` is the sum of the four per-line slide rewards, each
computed against the original board (the four lines touch disjoint cells). -/
theorem move_reward_unfold (b : List Nat) (dir : Fin 4) :
    (move b dir).reward =
      (slideLine (getLine 4 b dir 0)).2 + (slideLine (getLine 4 b dir 1)).2 +
      (slideLine (getLine 4 b dir 2)).2 + (slideLine (getLine 4 b dir 3)).2 := by
  rw [move, moveDir_four, moveStep_reward, moveStep_reward, moveStep_reward, moveStep_reward]
  rw [getLine_moveStep_ne dir (moveStep 4 dir (moveStep 4 dir ⟨b, false, 0⟩ 0) 1) 3 2
      (by norm_num) (by norm_num) (by norm_num)]
  rw [getLine_moveStep_ne dir (moveStep 4 dir ⟨b, false, 0⟩ 0) 3 1
      (by norm_num) (by norm_num) (by norm_num)]
  rw [getLine_moveStep_ne dir (moveStep 4 dir ⟨b, false, 0⟩ 0) 2 1
      (by norm_num) (by norm_num) (by norm_num)]
  rw [getLine_moveStep_ne dir ⟨b, false, 0⟩ 3 0 (by norm_num) (by norm_num) (by norm_num)]
  rw [getLine_moveStep_ne dir ⟨b, false, 0⟩ 2 0 (by norm_num) (by norm_num) (by norm_num)]
  rw [getLine_moveStep_ne dir ⟨b, false, 0⟩ 1 0 (by norm_num) (by norm_num) (by norm_num)]
  rw [mk_board, mk_reward]
  omega

/-- The moved flag of `move` is the disjunction of the four per-line change
tests, each against the original board. -/
theorem move_moved_unfold (b : List Nat) (dir : Fin 4) :
    (move b dir).moved =
      (decide ((slideLine (getLine 4 b dir 0)).1 ≠ getLine 4 b dir 0) ||
       decide ((slideLine (getLine 4 b dir 1)).1 ≠ getLine 4 b dir 1) ||
       decide ((slideLine (getLine 4 b dir 2)).1 ≠ getLine 4 b dir 2) ||
       decide ((slideLine (getLine 4 b dir 3)).1 ≠ getLine 4 b dir 3)) := by
  rw [move, moveDir_four, moveStep_moved, moveStep_moved, moveStep_moved, moveStep_moved]
  rw [getLine_moveStep_ne dir (moveStep 4 dir (moveStep 4 dir ⟨b, false, 0⟩ 0) 1) 3 2
      (by norm_num) (by norm_num) (by norm_num)]
  rw [getLine_moveStep_ne dir (moveStep 4 dir ⟨b, false, 0⟩ 0) 3 1
      (by norm_num) (by norm_num) (by norm_num)]
  rw [getLine_moveStep_ne dir (moveStep 4 dir ⟨b, false, 0⟩ 0) 2 1
      (by norm_num) (by norm_num) (by norm_num)]
  rw [getLine_moveStep_ne dir ⟨b, false, 0⟩ 3 0 (by norm_num) (by norm_num) (by norm_num)]
  rw [getLine_moveStep_ne dir ⟨b, false, 0⟩ 2 0 (by norm_num) (by norm_num) (by norm_num)]
  rw [getLine_moveStep_ne dir ⟨b, false, 0⟩ 1 0 (by norm_num) (by norm_num) (by norm_num)]
  rw [mk_board, mk_moved]
  simp [Bool.or_assoc]

/-! ## Claim theorems -/

/-- **C6**: for every board, `canMove` returns `true` iff some cell is empty or
some two horizontally or vertically adjacent cells hold equal non-zero codes;
in particular it returns `false` on a full board with no equal adjacent pair. -/
theorem canMove_iff_empty_or_adjacent_pair (b : List Nat) :
    canMove b = true ↔
      (∃ i, i < 16 ∧ b.getD i 0 = 0) ∨
      (∃ r c, r < 4 ∧ c < 4 ∧ b.getD (r * 4 + c) 0 ≠ 0 ∧
        ((c + 1 < 4 ∧ b.getD (r * 4 + c) 0 = b.getD (r * 4 + c + 1) 0) ∨
         (r + 1 < 4 ∧ b.getD (r * 4 + c) 0 = b.getD ((r + 1) * 4 + c) 0))) := by
  rw [canMove]
  simp only [Bool.or_eq_true, List.any_eq_true, List.mem_range, beq_iff_eq,
    Bool.and_eq_true, decide_eq_true_eq]
  constructor
  · rintro (⟨i, hi, h0⟩ | ⟨r, hr, c, hc, hpair⟩)
    · exact Or.inl ⟨i, hi, h0⟩
    · by_cases hz : b.getD (r * 4 + c) 0 = 0
      · exact Or.inl ⟨r * 4 + c, by omega, hz⟩
      · rcases hpair with ⟨hc3, he⟩ | ⟨hr3, he⟩
        · exact Or.inr ⟨r, c, hr, hc, hz, Or.inl ⟨by omega, he⟩⟩
        · exact Or.inr ⟨r, c, hr, hc, hz, Or.inr ⟨by omega, he⟩⟩
  · rintro (⟨i, hi, h0⟩ | ⟨r, c, hr, hc, hz, hpair⟩)
    · exact Or.inl ⟨i, hi, h0⟩
    · rcases hpair with ⟨hc3, he⟩ | ⟨hr3, he⟩
      · exact Or.inr ⟨r, hr, c, hc, Or.inl ⟨by omega, he⟩⟩
      · exact Or.inr ⟨r, hr, c, hc, Or.inr ⟨by omega, he⟩⟩

/-- **C1**: for every board and direction, `move`'s reward is the sum of the
actual values `2 ^ code` of the tiles created by merges during the call, and
the reward is 0 whenever the returned `moved` flag is `false`. -/
theorem move_reward_eq_merged_values_and_zero_if_not_moved (b : List Nat) (dir : Fin 4)
    (_hb : ValidBoard b) :
    (move b dir).reward = ((moveMergedCodes b dir).map fun c => 2 ^ c).sum ∧
      ((move b dir).moved = false → (move b dir).reward = 0) := by
  have hr := move_reward_unfold b dir
  have hm := move_moved_unfold b dir
  constructor
  · rw [hr, moveMergedCodes]
    simp only [List.map_append, List.sum_append]
    rw [slideLine_snd, slideLine_snd, slideLine_snd, slideLine_snd,
      mergePass_reward_eq, mergePass_reward_eq, mergePass_reward_eq, mergePass_reward_eq]
  · intro h
    rw [hm] at h
    simp only [Bool.or_eq_false_iff, decide_eq_false_iff_not, ne_eq, not_not] at h
    obtain ⟨⟨⟨h0, h1⟩, h2⟩, h3⟩ := h
    rw [hr, slideLine_eq_self_reward _ h0, slideLine_eq_self_reward _ h1,
      slideLine_eq_self_reward _ h2, slideLine_eq_self_reward _ h3]

/-- Witness for C1 at a concrete input: the board with top row `[2,2,4,_]`
(codes `[1,1,2,0]`) moved left. -/
theorem move_reward_witness :
    ValidBoard [1, 1, 2, 0, 0, 0, 0, 0, 0, 0, 0, 0, 0, 0, 0, 0] ∧
      ((move [1, 1, 2, 0, 0, 0, 0, 0, 0, 0, 0, 0, 0, 0, 0, 0] 3).reward =
        ((moveMergedCodes [1, 1, 2, 0, 0, 0, 0, 0, 0, 0, 0, 0, 0, 0, 0, 0] 3).map
          fun c => 2 ^ c).sum ∧
        ((move [1, 1, 2, 0, 0, 0, 0, 0, 0, 0, 0, 0, 0, 0, 0, 0] 3).moved = false →
          (move [1, 1, 2, 0, 0, 0, 0, 0, 0, 0, 0, 0, 0, 0, 0, 0] 3).reward = 0)) :=
  ⟨by decide,
   move_reward_eq_merged_values_and_zero_if_not_moved
     [1, 1, 2, 0, 0, 0, 0, 0, 0, 0, 0, 0, 0, 0, 0, 0] 3 (by decide)⟩

/-- **C9**: for every board and direction, `move` preserves the total over all
cells of the actual tile values: compaction only rearranges tiles and each
merge replaces two tiles of value `v` by one tile of value `2 * v`. -/
theorem move_preserves_tile_value_total (b : List Nat) (dir : Fin 4)
    (hb : ValidBoard b) :
    tvSum (move b dir).board = tvSum b := by
  obtain ⟨hlen, _⟩ := hb
  rw [move, moveDir_four]
  have h0 : (⟨b, false, 0⟩ : MoveResult).board.length = 16 := hlen
  have h1 : (moveStep 4 dir ⟨b, false, 0⟩ 0).board.length = 16 := by
    rw [length_moveStep_board]; exact h0
  have h2 : (moveStep 4 dir (moveStep 4 dir ⟨b, false, 0⟩ 0) 1).board.length = 16 := by
    rw [length_moveStep_board]; exact h1
  have h3 : (moveStep 4 dir (moveStep 4 dir (moveStep 4 dir ⟨b, false, 0⟩ 0) 1) 2).board.length
      = 16 := by
    rw [length_moveStep_board]; exact h2
  rw [tvSum_moveStep_board dir _ 3 (by norm_num) h3,
    tvSum_moveStep_board dir _ 2 (by norm_num) h2,
    tvSum_moveStep_board dir _ 1 (by norm_num) h1,
    tvSum_moveStep_board dir _ 0 (by norm_num) h0]

/-- Witness for C9 at a concrete input: a board with two pairs of equal tiles
moved up. -/
theorem move_preserves_tile_value_total_witness :
    ValidBoard [3, 0, 0, 2, 3, 0, 0, 2, 1, 0, 0, 0, 0, 0, 0, 0] ∧
      tvSum (move [3, 0, 0, 2, 3, 0, 0, 2, 1, 0, 0, 0, 0, 0, 0, 0] 0).board =
        tvSum [3, 0, 0, 2, 3, 0, 0, 2, 1, 0, 0, 0, 0, 0, 0, 0] :=
  ⟨by decide,
   move_preserves_tile_value_total [3, 0, 0, 2, 3, 0, 0, 2, 1, 0, 0, 0, 0, 0, 0, 0] 0
     (by decide)⟩

/-! Dedup-fold bookkeeping for the variant lists. -/

theorem kfoFold_nodup (xs : List (List Nat)) :
    ∀ acc : List (List Nat), acc.Nodup →
      (xs.foldl (fun acc t => if t ∈ acc then acc else acc ++ [t]) acc).Nodup := by
  induction xs with
  | nil => intro acc h; simpa using h
  | cons x xs ih =>
    intro acc h
    simp only [List.foldl_cons]
    by_cases hx : x ∈ acc
    · rw [if_pos hx]; exact ih acc h
    · rw [if_neg hx]
      refine ih _ ?_
      simp [List.nodup_append, h, hx]

theorem kfoFold_length_le (xs : List (List Nat)) :
    ∀ acc : List (List Nat),
      (xs.foldl (fun acc t => if t ∈ acc then acc else acc ++ [t]) acc).length ≤
        acc.length + xs.length := by
  induction xs with
  | nil => intro acc; simp
  | cons x xs ih =>
    intro acc
    simp only [List.foldl_cons, List.length_cons]
    by_cases hx : x ∈ acc
    · rw [if_pos hx]
      have := ih acc
      omega
    · rw [if_neg hx]
      have := ih (acc ++ [x])
      simp only [List.length_append, List.length_cons, List.length_nil] at this
      omega

theorem kfoFold_length_mono (xs : List (List Nat)) :
    ∀ acc : List (List Nat),
      acc.length ≤ (xs.foldl (fun acc t => if t ∈ acc then acc else acc ++ [t]) acc).length := by
  induction xs with
  | nil => intro acc; simp
  | cons x xs ih =>
    intro acc
    simp only [List.foldl_cons]
    by_cases hx : x ∈ acc
    · rw [if_pos hx]; exact ih acc
    · rw [if_neg hx]
      have := ih (acc ++ [x])
      simp only [List.length_append, List.length_cons, List.length_nil] at this
      omega

/-- The seen-set/variant-list fold of `allSymmetries` computes the plain
first-occurrence dedup fold, as long as the seen set and the variant list hold
the same elements (which the fold maintains). -/
theorem allSymmetries_foldl (pattern : List Nat) (maps : List (List Nat)) :
    ∀ seen vars : List (List Nat), (∀ t, t ∈ seen ↔ t ∈ vars) →
      (maps.foldl (symStep pattern) (seen, vars)).2 =
        maps.foldl (fun acc m =>
          if applySymmetry pattern m ∈ acc then acc
          else acc ++ [applySymmetry pattern m]) vars := by
  induction maps with
  | nil => intro seen vars _; rfl
  | cons m maps ih =>
    intro seen vars h
    simp only [List.foldl_cons, symStep]
    by_cases hm : applySymmetry pattern m ∈ seen
    · rw [if_pos hm, if_pos ((h _).1 hm)]
      exact ih seen vars h
    · rw [if_neg hm, if_neg fun hc => hm ((h _).2 hc)]
      refine ih _ _ fun t => ?_
      simp only [List.mem_cons, List.mem_append, List.mem_singleton, h t]
      tauto

theorem allSymmetries_eq_keepFirst (p : List Nat) :
    allSymmetries p = keepFirstOccurrences (SYMMETRY_MAPS.map (applySymmetry p)) := by
  rw [allSymmetries, keepFirstOccurrences, List.foldl_map]
  exact allSymmetries_foldl p SYMMETRY_MAPS [] [] (by simp)

theorem keepFirst_cons_length_pos (x : List Nat) (xs : List (List Nat)) :
    1 ≤ (keepFirstOccurrences (x :: xs)).length := by
  rw [keepFirstOccurrences]
  simp only [List.foldl_cons]
  rw [if_neg (List.not_mem_nil x), List.nil_append]
  have := kfoFold_length_mono xs [x]
  simpa using this

theorem keepFirst_length_le (xs : List (List Nat)) :
    (keepFirstOccurrences xs).length ≤ xs.length := by
  rw [keepFirstOccurrences]
  have := kfoFold_length_le xs []
  simpa using this

theorem keepFirst_nodup (xs : List (List Nat)) : (keepFirstOccurrences xs).Nodup :=
  kfoFold_nodup xs [] List.nodup_nil

/-- **C7**: for every base pattern, the variant list built by applying all 8
symmetry transforms and deduplicating has between 1 and 8 entries, contains no
two equal index lists, and keeps exactly the first occurrence of each distinct
transformed tuple in transform order. -/
theorem allSymmetries_variants_spec (p : List Nat) :
    1 ≤ (allSymmetries p).length ∧ (allSymmetries p).length ≤ 8 ∧
      (allSymmetries p).Nodup ∧
      allSymmetries p = keepFirstOccurrences (SYMMETRY_MAPS.map (applySymmetry p)) := by
  have heq := allSymmetries_eq_keepFirst p
  refine ⟨?_, ?_, ?_, heq⟩
  · rw [heq, SYMMETRY_MAPS, List.map_cons]
    exact keepFirst_cons_length_pos _ _
  · rw [heq]
    have h1 := keepFirst_length_le (SYMMETRY_MAPS.map (applySymmetry p))
    have h2 : (SYMMETRY_MAPS.map (applySymmetry p)).length = 8 := by
      rw [List.length_map]; rfl
    omega
  · rw [heq]
    exact keepFirst_nodup _

/-! Index bounds of the network's LUT reads and writes. -/

theorem getD_lt_of_forall (b : List Nat) (i : Nat) (h : ∀ c ∈ b, c < 16) :
    b.getD i 0 < 16 := by
  induction b generalizing i with
  | nil => simp
  | cons a t ih =>
    cases i with
    | zero => exact h a (by simp)
    | succ i =>
      simp only [List.getD_cons_succ]
      exact ih i fun c hc => h c (by simp [hc])

theorem kfoFold_mem_sub (xs : List (List Nat)) :
    ∀ (acc : List (List Nat)) (t : List Nat),
      t ∈ xs.foldl (fun acc t => if t ∈ acc then acc else acc ++ [t]) acc →
        t ∈ acc ∨ t ∈ xs := by
  induction xs with
  | nil => intro acc t h; exact Or.inl (by simpa using h)
  | cons x xs ih =>
    intro acc t h
    simp only [List.foldl_cons] at h
    by_cases hx : x ∈ acc
    · rw [if_pos hx] at h
      rcases ih acc t h with h₁ | h₁
      · exact Or.inl h₁
      · exact Or.inr (by simp [h₁])
    · rw [if_neg hx] at h
      rcases ih (acc ++ [x]) t h with h₁ | h₁
      · rcases List.mem_append.1 h₁ with h₂ | h₂
        · exact Or.inl h₂
        · exact Or.inr (by simp_all)
      · exact Or.inr (by simp [h₁])

theorem keepFirst_mem (xs : List (List Nat)) (t : List Nat)
    (h : t ∈ keepFirstOccurrences xs) : t ∈ xs := by
  rcases kfoFold_mem_sub xs [] t (by simpa [keepFirstOccurrences] using h) with h₁ | h₁
  · simp at h₁
  · exact h₁

theorem mem_allSymmetries_length (p v : List Nat) (hv : v ∈ allSymmetries p) :
    v.length = p.length := by
  have hmem := keepFirst_mem _ _ ((allSymmetries_eq_keepFirst p) ▸ hv)
  simp only [List.mem_map] at hmem
  obtain ⟨m, -, rfl⟩ := hmem
  simp [applySymmetry]

theorem index_foldl_lt (b : List Nat) (hb : ∀ c ∈ b, c < 16) (p : List Nat) :
    ∀ acc B : Nat, acc < B →
      p.foldl (fun idx i => idx * NUM_VALUES + b.getD i 0) acc <
        B * NUM_VALUES ^ p.length := by
  induction p with
  | nil => intro acc B h; simpa using h
  | cons x p ih =>
    intro acc B h
    simp only [List.foldl_cons, List.length_cons]
    have hx : b.getD x 0 < 16 := getD_lt_of_forall b x hb
    have hN : NUM_VALUES = 16 := rfl
    have hstep : acc * NUM_VALUES + b.getD x 0 < B * NUM_VALUES := by
      rw [hN]; omega
    have h2 := ih (acc * NUM_VALUES + b.getD x 0) (B * NUM_VALUES) hstep
    have h3 : B * NUM_VALUES ^ (p.length + 1) = B * NUM_VALUES * NUM_VALUES ^ p.length := by
      rw [pow_succ]; ring
    rw [h3]
    exact h2

theorem index_lt_pow (b p : List Nat) (hb : ∀ c ∈ b, c < 16) :
    NTupleNetwork._index b p < NUM_VALUES ^ p.length := by
  have h := index_foldl_lt b hb p 0 1 (by norm_num)
  simpa [NTupleNetwork._index] using h

/-- **C10**: for every board with cell codes in 0..15 and every variant of
every pattern of the network's catalog, the LUT index computed by `_index`
lies within that pattern's table, so every LUT access of `evaluate` and
`update` is in bounds. -/
theorem index_within_lut_bounds (b : List Nat) (hb : ValidBoard b) :
    ∀ entry ∈ NTupleNetwork.init.patterns, ∀ v ∈ entry.variants,
      NTupleNetwork._index b v < entry.lut.length := by
  obtain ⟨-, hcodes⟩ := hb
  intro entry hentry v hv
  rw [NTupleNetwork.init] at hentry
  simp only [List.mem_map] at hentry
  obtain ⟨base, hbase, rfl⟩ := hentry
  simp only at hv ⊢
  rw [List.length_replicate, lutSize, ← mem_allSymmetries_length base v hv]
  exact index_lt_pow b v hcodes

/-- Witness for C10 at a concrete input: the all-empty board, the first
catalog pattern (`rect_2x3`), and its identity variant. -/
theorem index_within_lut_bounds_witness :
    ValidBoard (List.replicate 16 0) ∧
      ({ tupleLen := rect_2x3.length, variants := allSymmetries rect_2x3,
         lut := List.replicate (lutSize rect_2x3.length) 0 } : PatternEntry) ∈
        NTupleNetwork.init.patterns ∧
      rect_2x3 ∈ allSymmetries rect_2x3 ∧
      NTupleNetwork._index (List.replicate 16 0) rect_2x3 <
        (List.replicate (lutSize rect_2x3.length) (0 : ℚ)).length :=
  ⟨by decide,
   List.mem_map_of_mem _ (by decide : rect_2x3 ∈ BASE_PATTERNS),
   by decide,
   index_within_lut_bounds (List.replicate 16 0) (by decide) _
     (List.mem_map_of_mem _ (by decide : rect_2x3 ∈ BASE_PATTERNS))
     rect_2x3 (by decide)⟩

/-! Weight-file loading: unfoldings and mismatch behaviour. -/

theorem loadAux_cons (p : PatternEntry) (ps : List PatternEntry) (s : SavedPattern)
    (ss : List SavedPattern) :
    loadAux (p :: ps) (s :: ss) =
      if s.lutSize ≠ p.lut.length then (p :: ps, some .lutSizeMismatch)
      else
        match lutSet p.lut s.lut with
        | none => (p :: ps, some .rangeError)
        | some lut₂ => ({ p with lut := lut₂ } :: (loadAux ps ss).1, (loadAux ps ss).2) := rfl

theorem loadAux_cons_mismatch (p : PatternEntry) (ps : List PatternEntry) (s : SavedPattern)
    (ss : List SavedPattern) (hsz : s.lutSize ≠ p.lut.length) :
    loadAux (p :: ps) (s :: ss) = (p :: ps, some .lutSizeMismatch) := by
  rw [loadAux_cons, if_pos hsz]

theorem lutSet_full (dst src : List ℚ) (h : src.length = dst.length) :
    lutSet dst src = some src := by
  rw [lutSet, if_neg (by omega)]
  rw [h, List.drop_length, List.append_nil]

theorem loadAux_cons_ok (p : PatternEntry) (ps : List PatternEntry) (s : SavedPattern)
    (ss : List SavedPattern) (hsz : s.lutSize = p.lut.length)
    (hlen : s.lut.length = p.lut.length) :
    loadAux (p :: ps) (s :: ss) =
      ({ p with lut := s.lut } :: (loadAux ps ss).1, (loadAux ps ss).2) := by
  rw [loadAux_cons, if_neg (by omega), lutSet_full p.lut s.lut hlen]

theorem loadBinAux_cons (p : PatternEntry) (ps : List PatternEntry) (r : BinRecord)
    (rs : List BinRecord) :
    loadBinAux (p :: ps) (r :: rs) =
      if r.data.length ≠ p.lut.length then (p :: ps, some .lutSizeMismatch)
      else ({ p with lut := r.data } :: (loadBinAux ps rs).1, (loadBinAux ps rs).2) := rfl

theorem loadBinAux_cons_mismatch (p : PatternEntry) (ps : List PatternEntry) (r : BinRecord)
    (rs : List BinRecord) (hsz : r.data.length ≠ p.lut.length) :
    loadBinAux (p :: ps) (r :: rs) = (p :: ps, some .lutSizeMismatch) := by
  rw [loadBinAux_cons, if_pos hsz]

theorem loadBinAux_cons_ok (p : PatternEntry) (ps : List PatternEntry) (r : BinRecord)
    (rs : List BinRecord) (hlen : r.data.length = p.lut.length) :
    loadBinAux (p :: ps) (r :: rs) =
      ({ p with lut := r.data } :: (loadBinAux ps rs).1, (loadBinAux ps rs).2) := by
  rw [loadBinAux_cons, if_neg (by omega)]

theorem loadAux_error_of_short :
    ∀ (ps : List PatternEntry) (ss : List SavedPattern),
      ss.length < ps.length → ((loadAux ps ss).2).isSome = true := by
  intro ps
  induction ps with
  | nil => intro ss h; simp at h
  | cons p ps ih =>
    intro ss h
    cases ss with
    | nil => rfl
    | cons s ss =>
      by_cases hsz : s.lutSize ≠ p.lut.length
      · rw [loadAux_cons_mismatch p ps s ss hsz]; rfl
      · rw [loadAux_cons, if_neg hsz]
        rcases hset : lutSet p.lut s.lut with - | lut₂
        · rfl
        · simp only []
          exact ih ss (by simpa using h)

theorem loadAux_error_of_mismatch :
    ∀ (ps : List PatternEntry) (ss : List SavedPattern) (i : Nat)
      (hp : i < ps.length) (hs : i < ss.length),
      (ss.get ⟨i, hs⟩).lutSize ≠ (ps.get ⟨i, hp⟩).lut.length →
      ((loadAux ps ss).2).isSome = true := by
  intro ps
  induction ps with
  | nil => intro ss i hp; simp at hp
  | cons p ps ih =>
    intro ss i hp hs hmis
    cases ss with
    | nil => rfl
    | cons s ss =>
      by_cases hsz : s.lutSize ≠ p.lut.length
      · rw [loadAux_cons_mismatch p ps s ss hsz]; rfl
      · rw [loadAux_cons, if_neg hsz]
        rcases hset : lutSet p.lut s.lut with - | lut₂
        · rfl
        · simp only []
          cases i with
          | zero => simp at hmis; exact absurd hmis (by simpa using hsz)
          | succ i =>
            exact ih ss i (by simpa using hp) (by simpa using hs) (by simpa using hmis)

theorem loadBinAux_error_of_short :
    ∀ (ps : List PatternEntry) (rs : List BinRecord),
      rs.length < ps.length → ((loadBinAux ps rs).2).isSome = true := by
  intro ps
  induction ps with
  | nil => intro rs h; simp at h
  | cons p ps ih =>
    intro rs h
    cases rs with
    | nil => rfl
    | cons r rs =>
      by_cases hsz : r.data.length ≠ p.lut.length
      · rw [loadBinAux_cons_mismatch p ps r rs hsz]; rfl
      · rw [loadBinAux_cons, if_neg hsz]
        simp only []
        exact ih rs (by simpa using h)

theorem load_def (n : NTupleNetwork) (data : SaveData) :
    n.load data =
      if data.numPatterns ≠ n.patterns.length then (n, some .patternCountMismatch)
      else (⟨(loadAux n.patterns data.patterns).1⟩, (loadAux n.patterns data.patterns).2) := rfl

theorem loadBinary_def (n : NTupleNetwork) (f : BinFile) :
    n.loadBinary f =
      if f.numPatterns ≠ n.patterns.length then (n, some .patternCountMismatch)
      else (⟨(loadBinAux n.patterns f.records).1⟩, (loadBinAux n.patterns f.records).2) := rfl

theorem init_patterns_length : NTupleNetwork.init.patterns.length = 7 := rfl

theorem init_patterns_cons :
    NTupleNetwork.init.patterns =
      { tupleLen := rect_2x3.length, variants := allSymmetries rect_2x3,
        lut := List.replicate (lutSize rect_2x3.length) 0 } ::
      { tupleLen := rect_3x2.length, variants := allSymmetries rect_3x2,
        lut := List.replicate (lutSize rect_3x2.length) 0 } ::
      ([corner_L, line4_h, sq2x2, stair4, lshape4].map fun basePattern =>
        { tupleLen := basePattern.length, variants := allSymmetries basePattern,
          lut := List.replicate (lutSize basePattern.length) 0 }) := rfl

theorem getD_replicate_head (N : Nat) (a d : ℚ) (h : N ≠ 0) :
    (List.replicate N a).getD 0 d = a := by
  cases N with
  | zero => exact absurd rfl h
  | succ N => rw [List.replicate_succ]; rfl

theorem loadBinAux_error_of_mismatch :
    ∀ (ps : List PatternEntry) (rs : List BinRecord) (i : Nat)
      (hp : i < ps.length) (hs : i < rs.length),
      (rs.get ⟨i, hs⟩).data.length ≠ (ps.get ⟨i, hp⟩).lut.length →
      ((loadBinAux ps rs).2).isSome = true := by
  intro ps
  induction ps with
  | nil => intro rs i hp; simp at hp
  | cons p ps ih =>
    intro rs i hp hs hmis
    cases rs with
    | nil => rfl
    | cons r rs =>
      by_cases hsz : r.data.length ≠ p.lut.length
      · rw [loadBinAux_cons_mismatch p ps r rs hsz]; rfl
      · rw [loadBinAux_cons, if_neg hsz]
        simp only []
        cases i with
        | zero => simp at hmis; exact absurd hmis (by simpa using hsz)
        | succ i =>
          exact ih rs i (by simpa using hp) (by simpa using hs) (by simpa using hmis)

/-- Counterexample to **C2** as stated: loading a text weight file whose
pattern count matches the constructor catalog (7), whose first pattern matches
it, and whose second pattern's `lutSize` field mismatches, throws — but the
first pattern's LUT has already been overwritten, so the network's LUT
contents are not left unchanged. -/
theorem load_partial_application_counterexample :
    (((NTupleNetwork.init.load
        { version := 1, boardSize := 4, numPatterns := 7,
          patterns :=
            [{ tupleLen := 6, numVariants := 8, lutSize := Game2048.lutSize 6,
               lut := List.replicate (Game2048.lutSize 6) 1 },
             { tupleLen := 6, numVariants := 8, lutSize := 5, lut := [] }] }).2).isSome
        = true) ∧
      (NTupleNetwork.init.load
        { version := 1, boardSize := 4, numPatterns := 7,
          patterns :=
            [{ tupleLen := 6, numVariants := 8, lutSize := Game2048.lutSize 6,
               lut := List.replicate (Game2048.lutSize 6) 1 },
             { tupleLen := 6, numVariants := 8, lutSize := 5, lut := [] }] }).1 ≠
        NTupleNetwork.init := by
  have hrun : NTupleNetwork.init.load
      { version := 1, boardSize := 4, numPatterns := 7,
        patterns :=
          [{ tupleLen := 6, numVariants := 8, lutSize := Game2048.lutSize 6,
             lut := List.replicate (Game2048.lutSize 6) 1 },
           { tupleLen := 6, numVariants := 8, lutSize := 5, lut := [] }] } =
      (⟨{ tupleLen := rect_2x3.length, variants := allSymmetries rect_2x3,
           lut := List.replicate (Game2048.lutSize 6) 1 } ::
         { tupleLen := rect_3x2.length, variants := allSymmetries rect_3x2,
           lut := List.replicate (lutSize rect_3x2.length) 0 } ::
         ([corner_L, line4_h, sq2x2, stair4, lshape4].map fun basePattern =>
           { tupleLen := basePattern.length, variants := allSymmetries basePattern,
             lut := List.replicate (lutSize basePattern.length) 0 })⟩,
       some .lutSizeMismatch) := by
    rw [load_def, if_neg (by rw [init_patterns_length]; simp)]
    rw [init_patterns_cons]
    rw [loadAux_cons_ok _ _ _ _ (by rw [List.length_replicate]; rfl)
      (by rw [List.length_replicate, List.length_replicate]; rfl)]
    rw [loadAux_cons_mismatch _ _ _ _
      (by rw [List.length_replicate]
          norm_num [Game2048.lutSize, NUM_VALUES, rect_3x2, idx4])]
  constructor
  · rw [hrun]
    rfl
  · rw [hrun]
    intro hEq
    have hq := congrArg
      (fun m : NTupleNetwork => (m.patterns.getD 0 ⟨0, [], []⟩).lut.getD 0 0) hEq
    simp only [init_patterns_cons, List.getD_cons_zero] at hq
    rw [getD_replicate_head _ _ _ (by norm_num [Game2048.lutSize, NUM_VALUES]),
      getD_replicate_head _ _ _ (by norm_num [Game2048.lutSize, NUM_VALUES])] at hq
    exact one_ne_zero hq

/-- **C2 (amended)**: any pattern-count or LUT-length mismatch makes `load`
and `loadBinary` throw; on a pattern-count mismatch the network is returned
completely unchanged, but a LUT-length mismatch at a later pattern leaves the
patterns before it already overwritten — a mismatched file can be partially
applied. -/
theorem load_mismatch_throws (n : NTupleNetwork) (f : SaveData) (g : BinFile) :
    (f.numPatterns ≠ n.patterns.length → n.load f = (n, some .patternCountMismatch)) ∧
      (g.numPatterns ≠ n.patterns.length →
        n.loadBinary g = (n, some .patternCountMismatch)) ∧
      (∀ i (hp : i < n.patterns.length) (hs : i < f.patterns.length),
        (f.patterns.get ⟨i, hs⟩).lutSize ≠ (n.patterns.get ⟨i, hp⟩).lut.length →
        ((n.load f).2).isSome = true) ∧
      (f.patterns.length < n.patterns.length → ((n.load f).2).isSome = true) ∧
      (∀ i (hp : i < n.patterns.length) (hs : i < g.records.length),
        (g.records.get ⟨i, hs⟩).data.length ≠ (n.patterns.get ⟨i, hp⟩).lut.length →
        ((n.loadBinary g).2).isSome = true) ∧
      (g.records.length < n.patterns.length → ((n.loadBinary g).2).isSome = true) := by
  refine ⟨fun h => by rw [load_def, if_pos h],
    fun h => by rw [loadBinary_def, if_pos h], fun i hp hs hmis => ?_, fun h => ?_,
    fun i hp hs hmis => ?_, fun h => ?_⟩
  · by_cases hc : f.numPatterns ≠ n.patterns.length
    · rw [load_def, if_pos hc]; rfl
    · rw [load_def, if_neg hc]
      exact loadAux_error_of_mismatch n.patterns f.patterns i hp hs hmis
  · by_cases hc : f.numPatterns ≠ n.patterns.length
    · rw [load_def, if_pos hc]; rfl
    · rw [load_def, if_neg hc]
      exact loadAux_error_of_short n.patterns f.patterns h
  · by_cases hc : g.numPatterns ≠ n.patterns.length
    · rw [loadBinary_def, if_pos hc]; rfl
    · rw [loadBinary_def, if_neg hc]
      exact loadBinAux_error_of_mismatch n.patterns g.records i hp hs hmis
  · by_cases hc : g.numPatterns ≠ n.patterns.length
    · rw [loadBinary_def, if_pos hc]; rfl
    · rw [loadBinary_def, if_neg hc]
      exact loadBinAux_error_of_short n.patterns g.records h

/-- Witness for the amended C2 at concrete inputs: a pattern-count mismatch on
the empty network leaves it unchanged and throws, for both formats. -/
theorem load_mismatch_throws_witness :
    ((1 : Nat) ≠ (⟨[]⟩ : NTupleNetwork).patterns.length) ∧
      (⟨[]⟩ : NTupleNetwork).load
          { version := 1, boardSize := 4, numPatterns := 1, patterns := [] } =
        (⟨[]⟩, some .patternCountMismatch) ∧
      (⟨[]⟩ : NTupleNetwork).loadBinary { version := 1, numPatterns := 1, records := [] } =
        (⟨[]⟩, some .patternCountMismatch) :=
  ⟨by decide,
   (load_mismatch_throws ⟨[]⟩
      { version := 1, boardSize := 4, numPatterns := 1, patterns := [] }
      { version := 1, numPatterns := 1, records := [] }).1 (by decide),
   (load_mismatch_throws ⟨[]⟩
      { version := 1, boardSize := 4, numPatterns := 1, patterns := [] }
      { version := 1, numPatterns := 1, records := [] }).2.1 (by decide)⟩

/-! Round-trip of the weight-file formats. -/

theorem loadBinAux_roundtrip (ms ns : List PatternEntry)
    (h : List.Forall₂ (fun pm pn => pm.variants = pn.variants ∧
      pm.lut.length = pn.lut.length) ms ns) :
    loadBinAux ms (ns.map fun p => { tupleLen := p.tupleLen, data := p.lut }) =
      (List.zipWith (fun pm pn => { pm with lut := pn.lut }) ms ns, none) := by
  induction h with
  | nil => rfl
  | cons hR htail ih =>
    rw [List.map_cons, loadBinAux_cons_ok _ _ _ _ (by exact hR.2.symm), ih]
    rfl

theorem loadAux_roundtrip (ms ns : List PatternEntry)
    (h : List.Forall₂ (fun pm pn => pm.variants = pn.variants ∧
      pm.lut.length = pn.lut.length) ms ns) :
    loadAux ms (ns.map fun p =>
        { tupleLen := p.tupleLen, numVariants := p.variants.length,
          lutSize := p.lut.length, lut := p.lut }) =
      (List.zipWith (fun pm pn => { pm with lut := pn.lut }) ms ns, none) := by
  induction h with
  | nil => rfl
  | cons hR htail ih =>
    rw [List.map_cons, loadAux_cons_ok _ _ _ _ (by exact hR.2.symm) (by exact hR.2.symm), ih]
    rfl

theorem zipWith_restore_luts (ms ns : List PatternEntry)
    (h : List.Forall₂ (fun pm pn => pm.variants = pn.variants ∧
      pm.lut.length = pn.lut.length) ms ns) :
    ((List.zipWith (fun pm pn => { pm with lut := pn.lut }) ms ns).map fun p => p.lut) =
      ns.map fun p => p.lut := by
  induction h with
  | nil => rfl
  | cons hR htail ih => simp [ih]

theorem evaluate_cons (p : PatternEntry) (ps : List PatternEntry) (b : List Nat) :
    NTupleNetwork.evaluate ⟨p :: ps⟩ b =
      (p.variants.map fun v => p.lut.getD (NTupleNetwork._index b v) 0).sum +
        NTupleNetwork.evaluate ⟨ps⟩ b := by
  simp [NTupleNetwork.evaluate]

theorem evaluate_zipWith_restore (ms ns : List PatternEntry)
    (h : List.Forall₂ (fun pm pn => pm.variants = pn.variants ∧
      pm.lut.length = pn.lut.length) ms ns) (b : List Nat) :
    NTupleNetwork.evaluate ⟨List.zipWith (fun pm pn => { pm with lut := pn.lut }) ms ns⟩ b =
      NTupleNetwork.evaluate ⟨ns⟩ b := by
  induction h with
  | nil => rfl
  | cons hR htail ih =>
    rw [List.zipWith_cons_cons, evaluate_cons, evaluate_cons, ih]
    simp [hR.1]

/-- **C4**: for every network state, `saveBinary` followed by `loadBinary` into
a network with the same catalog succeeds and restores the LUT contents exactly
(the binary format copies the raw float bytes, so the restored LUTs are
bit-identical), hence `evaluate` returns an identical value on every board;
the text `save`/`load` round-trip likewise reproduces identical `evaluate`
outputs. -/
theorem save_load_roundtrip_exact (n m : NTupleNetwork) (h : CatalogMatch m n) :
    (m.loadBinary n.saveBinary).2 = none ∧
      ((m.loadBinary n.saveBinary).1.patterns.map fun p => p.lut) =
        (n.patterns.map fun p => p.lut) ∧
      (∀ b, (m.loadBinary n.saveBinary).1.evaluate b = n.evaluate b) ∧
      (m.load n.save).2 = none ∧
      ((m.load n.save).1.patterns.map fun p => p.lut) = (n.patterns.map fun p => p.lut) ∧
      (∀ b, (m.load n.save).1.evaluate b = n.evaluate b) := by
  have hf : List.Forall₂ (fun pm pn => pm.variants = pn.variants ∧
      pm.lut.length = pn.lut.length) m.patterns n.patterns := h
  have hlen : m.patterns.length = n.patterns.length := List.Forall₂.length_eq hf
  have hbin : m.loadBinary n.saveBinary =
      (⟨List.zipWith (fun pm pn => { pm with lut := pn.lut }) m.patterns n.patterns⟩,
        none) := by
    rw [loadBinary_def, if_neg (by simp [NTupleNetwork.saveBinary, hlen])]
    rw [show (NTupleNetwork.saveBinary n).records =
        (n.patterns.map fun p => { tupleLen := p.tupleLen, data := p.lut }) from rfl]
    rw [loadBinAux_roundtrip m.patterns n.patterns hf]
  have htxt : m.load n.save =
      (⟨List.zipWith (fun pm pn => { pm with lut := pn.lut }) m.patterns n.patterns⟩,
        none) := by
    rw [load_def, if_neg (by simp [NTupleNetwork.save, hlen])]
    rw [show (NTupleNetwork.save n).patterns =
        (n.patterns.map fun p =>
          { tupleLen := p.tupleLen, numVariants := p.variants.length,
            lutSize := p.lut.length, lut := p.lut }) from rfl]
    rw [loadAux_roundtrip m.patterns n.patterns hf]
  refine ⟨by rw [hbin], ?_, ?_, by rw [htxt], ?_, ?_⟩
  · rw [hbin]
    exact zipWith_restore_luts m.patterns n.patterns hf
  · intro b
    rw [hbin]
    exact evaluate_zipWith_restore m.patterns n.patterns hf b
  · rw [htxt]
    exact zipWith_restore_luts m.patterns n.patterns hf
  · intro b
    rw [htxt]
    exact evaluate_zipWith_restore m.patterns n.patterns hf b

/-- Witness for C4 at concrete inputs: a one-pattern source network with LUT
`[1]` loaded into a same-catalog network with LUT `[0]`. -/
theorem save_load_roundtrip_exact_witness :
    CatalogMatch ⟨[⟨1, [[0]], [0]⟩]⟩ ⟨[⟨1, [[0]], [1]⟩]⟩ ∧
      (((⟨[⟨1, [[0]], [0]⟩]⟩ : NTupleNetwork).loadBinary
          (NTupleNetwork.saveBinary ⟨[⟨1, [[0]], [1]⟩]⟩)).2 = none ∧
        (((⟨[⟨1, [[0]], [0]⟩]⟩ : NTupleNetwork).loadBinary
            (NTupleNetwork.saveBinary ⟨[⟨1, [[0]], [1]⟩]⟩)).1.patterns.map fun p => p.lut) =
          ((⟨[⟨1, [[0]], [1]⟩]⟩ : NTupleNetwork).patterns.map fun p => p.lut) ∧
        (∀ b, ((⟨[⟨1, [[0]], [0]⟩]⟩ : NTupleNetwork).loadBinary
            (NTupleNetwork.saveBinary ⟨[⟨1, [[0]], [1]⟩]⟩)).1.evaluate b =
          (⟨[⟨1, [[0]], [1]⟩]⟩ : NTupleNetwork).evaluate b) ∧
        ((⟨[⟨1, [[0]], [0]⟩]⟩ : NTupleNetwork).load
          (NTupleNetwork.save ⟨[⟨1, [[0]], [1]⟩]⟩)).2 = none ∧
        (((⟨[⟨1, [[0]], [0]⟩]⟩ : NTupleNetwork).load
            (NTupleNetwork.save ⟨[⟨1, [[0]], [1]⟩]⟩)).1.patterns.map fun p => p.lut) =
          ((⟨[⟨1, [[0]], [1]⟩]⟩ : NTupleNetwork).patterns.map fun p => p.lut) ∧
        (∀ b, ((⟨[⟨1, [[0]], [0]⟩]⟩ : NTupleNetwork).load
            (NTupleNetwork.save ⟨[⟨1, [[0]], [1]⟩]⟩)).1.evaluate b =
          (⟨[⟨1, [[0]], [1]⟩]⟩ : NTupleNetwork).evaluate b)) :=
  ⟨List.Forall₂.cons ⟨rfl, rfl⟩ List.Forall₂.nil,
   save_load_roundtrip_exact ⟨[⟨1, [[0]], [1]⟩]⟩ ⟨[⟨1, [[0]], [0]⟩]⟩
     (List.Forall₂.cons ⟨rfl, rfl⟩ List.Forall₂.nil)⟩

/-! Move selection of the learning loop: the fold keeps the first strict
improver, so it returns the legal action of maximal value with ties resolved
toward the earliest direction in enumeration order. -/

theorem selStep_eq (size : Nat) (net : NTupleNetwork) (b : List Nat) (acc : Option Cand)
    (d : Fin 4) :
    selStep size net b acc d =
      if (moveDir size b d).moved = false then acc
      else
        match acc with
        | none => some ⟨d, (moveDir size b d).board, (moveDir size b d).reward,
            actionValue size net b d⟩
        | some c =>
          if c.value < actionValue size net b d then
            some ⟨d, (moveDir size b d).board, (moveDir size b d).reward,
              actionValue size net b d⟩
          else acc := rfl

theorem selFold_go (size : Nat) (net : NTupleNetwork) (b : List Nat) :
    ∀ (L : List (Fin 4)) (c₀ : Cand),
      (moveDir size b c₀.dir).moved = true →
      c₀.after = (moveDir size b c₀.dir).board →
      c₀.reward = (moveDir size b c₀.dir).reward →
      c₀.value = actionValue size net b c₀.dir →
      (∀ d ∈ L, c₀.dir < d) → L.Pairwise (· < ·) →
      ∃ c, List.foldl (selStep size net b) (some c₀) L = some c ∧
        (moveDir size b c.dir).moved = true ∧
        c.after = (moveDir size b c.dir).board ∧
        c.reward = (moveDir size b c.dir).reward ∧
        c.value = actionValue size net b c.dir ∧
        c₀.value ≤ c.value ∧
        (c.value ≤ c₀.value → c = c₀) ∧
        (∀ d ∈ L, (moveDir size b d).moved = true →
          actionValue size net b d ≤ c.value ∧
          (c.value ≤ actionValue size net b d → c.dir ≤ d)) := by
  intro L
  induction L with
  | nil =>
    intro c₀ hm ha hr hv _ _
    exact ⟨c₀, rfl, hm, ha, hr, hv, le_refl _, fun _ => rfl, by simp⟩
  | cons d L ih =>
    intro c₀ hm ha hr hv hgt hpw
    rw [List.foldl_cons]
    by_cases hleg : (moveDir size b d).moved = false
    · rw [selStep_eq, if_pos hleg]
      obtain ⟨c, h1, h2, h3, h4, h5, h6, h7, h8⟩ :=
        ih c₀ hm ha hr hv (fun x hx => hgt x (by simp [hx])) (List.pairwise_cons.1 hpw).2
      refine ⟨c, h1, h2, h3, h4, h5, h6, h7, ?_⟩
      intro x hx hxm
      rcases List.mem_cons.1 hx with rfl | hx₂
      · rw [hxm] at hleg; cases hleg
      · exact h8 x hx₂ hxm
    · have hmoved : (moveDir size b d).moved = true := by
        cases hmm : (moveDir size b d).moved
        · exact absurd hmm hleg
        · rfl
      rw [selStep_eq, if_neg (by simp [hmoved])]
      simp only []
      by_cases hlt : c₀.value < actionValue size net b d
      · rw [if_pos hlt]
        obtain ⟨c, h1, h2, h3, h4, h5, h6, h7, h8⟩ :=
          ih ⟨d, (moveDir size b d).board, (moveDir size b d).reward,
              actionValue size net b d⟩
            hmoved rfl rfl rfl (fun x hx => (List.pairwise_cons.1 hpw).1 x hx)
            (List.pairwise_cons.1 hpw).2
        refine ⟨c, h1, h2, h3, h4, h5, le_trans (le_of_lt hlt) h6, ?_, ?_⟩
        · intro hle
          exact absurd (lt_of_lt_of_le hlt h6) (not_lt.2 hle)
        · intro x hx hxm
          rcases List.mem_cons.1 hx with rfl | hx₂
          · refine ⟨h6, fun hle => ?_⟩
            have hc : c = ⟨x, (moveDir size b x).board, (moveDir size b x).reward,
                actionValue size net b x⟩ := h7 hle
            rw [hc]
          · exact h8 x hx₂ hxm
      · rw [if_neg hlt]
        obtain ⟨c, h1, h2, h3, h4, h5, h6, h7, h8⟩ :=
          ih c₀ hm ha hr hv (fun x hx => hgt x (by simp [hx])) (List.pairwise_cons.1 hpw).2
        refine ⟨c, h1, h2, h3, h4, h5, h6, h7, ?_⟩
        intro x hx hxm
        rcases List.mem_cons.1 hx with rfl | hx₂
        · refine ⟨le_trans (not_lt.1 hlt) h6, fun hle => ?_⟩
          have hc : c = c₀ := h7 (le_trans hle (not_lt.1 hlt))
          rw [hc]
          exact le_of_lt (hgt x (by simp))
        · exact h8 x hx₂ hxm

theorem selFold_none_go (size : Nat) (net : NTupleNetwork) (b : List Nat) :
    ∀ L : List (Fin 4), L.Pairwise (· < ·) →
      (List.foldl (selStep size net b) none L = none →
        ∀ d ∈ L, (moveDir size b d).moved = false) ∧
      (∀ c, List.foldl (selStep size net b) none L = some c →
        (moveDir size b c.dir).moved = true ∧
        c.after = (moveDir size b c.dir).board ∧
        c.reward = (moveDir size b c.dir).reward ∧
        c.value = actionValue size net b c.dir ∧
        (∀ d ∈ L, (moveDir size b d).moved = true →
          actionValue size net b d ≤ c.value ∧
          (c.value ≤ actionValue size net b d → c.dir ≤ d))) := by
  intro L
  induction L with
  | nil =>
    intro _
    constructor
    · intro _ d hd; simp at hd
    · intro c hc; simp at hc
  | cons d L ih =>
    intro hpw
    rw [List.foldl_cons]
    by_cases hleg : (moveDir size b d).moved = false
    · rw [selStep_eq, if_pos hleg]
      obtain ⟨hn, hs⟩ := ih (List.pairwise_cons.1 hpw).2
      constructor
      · intro h0 x hx
        rcases List.mem_cons.1 hx with rfl | hx₂
        · exact hleg
        · exact hn h0 x hx₂
      · intro c hc
        obtain ⟨k1, k2, k3, k4, k5⟩ := hs c hc
        refine ⟨k1, k2, k3, k4, ?_⟩
        intro x hx hxm
        rcases List.mem_cons.1 hx with rfl | hx₂
        · rw [hxm] at hleg; cases hleg
        · exact k5 x hx₂ hxm
    · have hmoved : (moveDir size b d).moved = true := by
        cases hmm : (moveDir size b d).moved
        · exact absurd hmm hleg
        · rfl
      rw [selStep_eq, if_neg (by simp [hmoved])]
      simp only []
      obtain ⟨c, h1, h2, h3, h4, h5, h6, h7, h8⟩ :=
        selFold_go size net b L
          ⟨d, (moveDir size b d).board, (moveDir size b d).reward, actionValue size net b d⟩
          hmoved rfl rfl rfl (fun x hx => (List.pairwise_cons.1 hpw).1 x hx)
          (List.pairwise_cons.1 hpw).2
      constructor
      · intro h0
        rw [h1] at h0; cases h0
      · intro c₂ hc₂
        rw [h1] at hc₂
        injection hc₂ with hc₂
        subst hc₂
        refine ⟨h2, h3, h4, h5, ?_⟩
        intro x hx hxm
        rcases List.mem_cons.1 hx with rfl | hx₂
        · refine ⟨h6, fun hle => ?_⟩
          have hc : c = ⟨x, (moveDir size b x).board, (moveDir size b x).reward,
              actionValue size net b x⟩ := h7 hle
          rw [hc]
        · exact h8 x hx₂ hxm

/-- **C5**: whenever at least one direction is legal, the learning loop's move
selection returns a candidate whose value is `reward + evaluate(afterstate)`
and is maximal over the legal directions, and on ties the chosen direction is
the first in the fixed enumeration order up (0), right (1), down (2),
left (3). -/
theorem selectBestMove_argmax (size : Nat) (net : NTupleNetwork) (b : List Nat)
    (h : ∃ d : Fin 4, (moveDir size b d).moved = true) :
    ∃ c, selectBestMove size net b = some c ∧
      (moveDir size b c.dir).moved = true ∧
      c.after = (moveDir size b c.dir).board ∧
      c.reward = (moveDir size b c.dir).reward ∧
      c.value = actionValue size net b c.dir ∧
      (∀ d : Fin 4, (moveDir size b d).moved = true →
        actionValue size net b d ≤ c.value ∧
        (actionValue size net b d = c.value → c.dir ≤ d)) := by
  obtain ⟨hnone, hsome⟩ := selFold_none_go size net b [0, 1, 2, 3] (by decide)
  rcases hres : List.foldl (selStep size net b) none [0, 1, 2, 3] with - | c
  · obtain ⟨d, hd⟩ := h
    have hmem : d ∈ ([0, 1, 2, 3] : List (Fin 4)) := by fin_cases d <;> decide
    have := hnone hres d hmem
    rw [hd] at this; cases this
  · obtain ⟨k1, k2, k3, k4, k5⟩ := hsome c hres
    refine ⟨c, ?_, k1, k2, k3, k4, ?_⟩
    · rw [selectBestMove, hres]
    · intro d hd
      have hmem : d ∈ ([0, 1, 2, 3] : List (Fin 4)) := by fin_cases d <;> decide
      exact ⟨(k5 d hmem hd).1, fun heq => (k5 d hmem hd).2 (le_of_eq heq.symm)⟩

/-- Witness for C5 at a concrete input: a single tile in the top-left corner
of a 4x4 board (moving right, down are legal) with the empty network. -/
theorem selectBestMove_argmax_witness :
    (∃ d : Fin 4, (moveDir 4 [1, 0, 0, 0, 0, 0, 0, 0, 0, 0, 0, 0, 0, 0, 0, 0] d).moved = true) ∧
      (∃ c, selectBestMove 4 ⟨[]⟩ [1, 0, 0, 0, 0, 0, 0, 0, 0, 0, 0, 0, 0, 0, 0, 0] = some c ∧
        (moveDir 4 [1, 0, 0, 0, 0, 0, 0, 0, 0, 0, 0, 0, 0, 0, 0, 0] c.dir).moved = true ∧
        c.after = (moveDir 4 [1, 0, 0, 0, 0, 0, 0, 0, 0, 0, 0, 0, 0, 0, 0, 0] c.dir).board ∧
        c.reward = (moveDir 4 [1, 0, 0, 0, 0, 0, 0, 0, 0, 0, 0, 0, 0, 0, 0, 0] c.dir).reward ∧
        c.value = actionValue 4 ⟨[]⟩ [1, 0, 0, 0, 0, 0, 0, 0, 0, 0, 0, 0, 0, 0, 0, 0] c.dir ∧
        (∀ d : Fin 4,
          (moveDir 4 [1, 0, 0, 0, 0, 0, 0, 0, 0, 0, 0, 0, 0, 0, 0, 0] d).moved = true →
          actionValue 4 ⟨[]⟩ [1, 0, 0, 0, 0, 0, 0, 0, 0, 0, 0, 0, 0, 0, 0, 0] d ≤ c.value ∧
          (actionValue 4 ⟨[]⟩ [1, 0, 0, 0, 0, 0, 0, 0, 0, 0, 0, 0, 0, 0, 0, 0] d = c.value →
            c.dir ≤ d))) :=
  ⟨⟨1, by decide⟩,
   selectBestMove_argmax 4 ⟨[]⟩ [1, 0, 0, 0, 0, 0, 0, 0, 0, 0, 0, 0, 0, 0, 0, 0]
     ⟨1, by decide⟩⟩

/-! Exact-arithmetic analogues of the update laws.  The program stores LUT
weights in a `Float32Array`, where `lut[idx] += delta` rounds; over the exact
rationals of this model, a zero update is the identity and updating twice by
`delta` equals one update by `2 * delta`. -/

theorem set_getD_self (l : List ℚ) (i : Nat) : l.set i (l.getD i 0) = l := by
  induction l generalizing i with
  | nil => rfl
  | cons a t ih =>
    cases i with
    | zero => rfl
    | succ i => simp only [List.set, List.getD_cons_succ, ih]

theorem update_zero_eq_self (n : NTupleNetwork) (b : List Nat) : n.update b 0 = n := by
  have hfold : ∀ (vs : List (List Nat)) (lut : List ℚ),
      vs.foldl (fun lut v =>
        lut.set (NTupleNetwork._index b v)
          (lut.getD (NTupleNetwork._index b v) 0 + 0)) lut = lut := by
    intro vs
    induction vs with
    | nil => intro lut; rfl
    | cons v vs ih =>
      intro lut
      rw [List.foldl_cons, add_zero, set_getD_self]
      exact ih lut
  rw [NTupleNetwork.update]
  cases n with
  | mk ps =>
    simp only [NTupleNetwork.mk.injEq]
    induction ps with
    | nil => rfl
    | cons p ps ih =>
      rw [List.map_cons, ih, hfold]

theorem evaluate_update_zero (n : NTupleNetwork) (b b₂ : List Nat) :
    (n.update b 0).evaluate b₂ = n.evaluate b₂ := by
  rw [update_zero_eq_self]

theorem updFold_length (b : List Nat) (δ : ℚ) (vs : List (List Nat)) :
    ∀ lut : List ℚ,
      (vs.foldl (fun lut v =>
        lut.set (NTupleNetwork._index b v)
          (lut.getD (NTupleNetwork._index b v) 0 + δ)) lut).length = lut.length := by
  induction vs with
  | nil => intro lut; rfl
  | cons v vs ih =>
    intro lut
    rw [List.foldl_cons, ih, List.length_set]

theorem getD_set_self_lt (l : List ℚ) (i : Nat) (x : ℚ) (h : i < l.length) :
    (l.set i x).getD i 0 = x := by
  induction l generalizing i with
  | nil => simp at h
  | cons a t ih =>
    cases i with
    | zero => rfl
    | succ i =>
      simp only [List.set, List.getD_cons_succ]
      exact ih i (by simpa using h)

theorem getD_set_ne_rat (l : List ℚ) (p q : Nat) (x : ℚ) (h : p ≠ q) :
    (l.set p x).getD q 0 = l.getD q 0 := by
  induction l generalizing p q with
  | nil => simp
  | cons a t ih =>
    cases p with
    | zero =>
      cases q with
      | zero => exact absurd rfl h
      | succ q => simp [List.set]
    | succ p =>
      cases q with
      | zero => simp [List.set]
      | succ q =>
        simp only [List.set, List.getD_cons_succ]
        exact ih p q (by omega)

theorem getD_of_length_le (l : List ℚ) (j : Nat) (h : l.length ≤ j) : l.getD j 0 = 0 := by
  induction l generalizing j with
  | nil => simp
  | cons a t ih =>
    cases j with
    | zero => simp at h
    | succ j =>
      simp only [List.getD_cons_succ]
      exact ih j (by simpa using h)

theorem set_of_length_le (l : List ℚ) (j : Nat) (x : ℚ) (h : l.length ≤ j) :
    l.set j x = l := by
  induction l generalizing j with
  | nil => rfl
  | cons a t ih =>
    cases j with
    | zero => simp at h
    | succ j =>
      simp only [List.set]
      rw [ih j (by simpa using h)]

/-- Pointwise effect of one update pass: cell `j` gains `delta` once per
variant addressing it (out-of-range writes are ignored, as the typed array
ignores them). -/
theorem updFold_getD (b : List Nat) (δ : ℚ) (vs : List (List Nat)) :
    ∀ (lut : List ℚ) (j : Nat),
      (vs.foldl (fun lut v =>
        lut.set (NTupleNetwork._index b v)
          (lut.getD (NTupleNetwork._index b v) 0 + δ)) lut).getD j 0 =
      lut.getD j 0 +
        (if j < lut.length then
          ((vs.countP fun v => decide (NTupleNetwork._index b v = j)) : ℚ) * δ
        else 0) := by
  induction vs with
  | nil =>
    intro lut j
    by_cases hj : j < lut.length <;> simp [hj]
  | cons v vs ih =>
    intro lut j
    rw [List.foldl_cons]
    rw [ih (lut.set (NTupleNetwork._index b v)
      (lut.getD (NTupleNetwork._index b v) 0 + δ)) j]
    rw [List.countP_cons]
    by_cases hj : j < lut.length
    · simp only [List.length_set, if_pos hj]
      by_cases hv : NTupleNetwork._index b v = j
      · rw [hv, getD_set_self_lt _ _ _ hj]
        simp [hv]
        ring
      · rw [getD_set_ne_rat _ _ _ _ hv]
        simp [hv]
    · simp only [List.length_set, if_neg hj]
      have hle : lut.length ≤ j := by omega
      by_cases hv : NTupleNetwork._index b v = j
      · rw [hv, set_of_length_le _ _ _ (hv ▸ hle)]
      · rw [getD_set_ne_rat _ _ _ _ hv]

theorem getD_ext_rat (l₁ l₂ : List ℚ) (hlen : l₁.length = l₂.length)
    (h : ∀ j, l₁.getD j 0 = l₂.getD j 0) : l₁ = l₂ := by
  induction l₁ generalizing l₂ with
  | nil => cases l₂ with
    | nil => rfl
    | cons b t => simp at hlen
  | cons a t ih =>
    cases l₂ with
    | nil => simp at hlen
    | cons b t₂ =>
      have h0 := h 0
      simp only [List.getD_cons_zero] at h0
      rw [h0, ih t₂ (by simpa using hlen) fun j => by simpa using h (j + 1)]

/-- Exact-arithmetic repetition linearity: two passes of `update` by `delta`
equal one pass by `2 * delta` (the Float32Array claim C3 idealizes this; under
float rounding the two differ in general). -/
theorem update_twice_eq_update_double (n : NTupleNetwork) (b : List Nat) (δ : ℚ) :
    (n.update b δ).update b δ = n.update b (2 * δ) := by
  rw [NTupleNetwork.update, NTupleNetwork.update, NTupleNetwork.update]
  cases n with
  | mk ps =>
    simp only [NTupleNetwork.mk.injEq, List.map_map]
    refine List.map_congr_left fun p _ => ?_
    simp only [Function.comp]
    congr 1
    refine getD_ext_rat _ _ ?_ ?_
    · rw [updFold_length, updFold_length, updFold_length]
    · intro j
      rw [updFold_getD, updFold_getD, updFold_getD, updFold_length]
      by_cases hj : j < p.lut.length
      · simp only [if_pos hj]
        ring
      · simp only [if_neg hj]
        ring

/-! Expectimax at depth 0. -/

theorem chanceNode_nonpos (V : List Nat → ℚ) (sample : List Nat → List Nat)
    (depth : Int) (board : List Nat) (h : depth ≤ 0) :
    chanceNode V sample depth board = V board := by
  rw [chanceNode, if_pos h]

/-- **C8**: for every board and every evaluation function (network state), the
expectimax player with depth 0 selects exactly the same action as the greedy
player, including the `-1` no-move sentinel: its chance node returns the
static evaluation at depth ≤ 0, and both players run the same maximisation
with the same tie-breaking order. -/
theorem expectimax_depth_zero_eq_greedy (V : List Nat → ℚ)
    (sample : List Nat → List Nat) (b : List Nat) :
    expectimaxSelectMove V sample 0 b = greedySelectMove V b := by
  rw [expectimaxSelectMove, greedySelectMove]
  have hc : ∀ bd : List Nat, chanceNode V sample (0 - 1) bd = V bd :=
    fun bd => chanceNode_nonpos V sample (0 - 1) bd (by norm_num)
  simp only [hc]

end Game2048

